import Mathlib

/-!
# A model of the `esbuild-generic-loader` transcoding engine

This file gives a shallow embedding of the core of the repository:

* `src/funcdefs.ts` — the `zipArrays` / `zipArraysMapperFactory` correlation
  utilities;
* `src/loader.ts` — the `GenericLoader` forward/reverse transcoding protocol:
  `parseToJs` (wrap), `unparseFromJs` (unwrap), `contentExportJs` (raw-string
  content export), the marker grammar, the two regexes used to recover the
  transformed import paths, and the metadata bookkeeping.

JavaScript strings are modelled as `List Char`.  The two fixed regular
expressions of `loader.ts` (`import_statements_block_regex` and
`import_statement_regex`) are modelled by explicit left-to-right scanners with
exactly the matching semantics of the concrete patterns (greedy `[,;]*`,
non-greedy `.*?`, global scan continuing after each match).  The dynamic
`import()` evaluation of the residual module is modelled by an evaluator for
precisely the statement forms the residual scripts contain (the exported
`importKeys` array, `importKeys.push("…")` statements with JS string-literal
semantics, and the `String.raw` tagged-template export of the content,
including template-substitution and backslash handling of tagged templates).
The compile-time flags of `src/deps.ts` (`DEBUG.META = 1`, `DEBUG.ASSERT = 1`)
are modelled as constants.
-/

set_option maxHeartbeats 1000000
set_option maxRecDepth 10000

/-- JavaScript strings, modelled as lists of characters. -/
abbrev JStr := List Char

/-- The backtick character (template-literal delimiter). -/
def backtick : Char := "`".data.headD ' '

/-- The character class of the JS regex `\s` (ES whitespace and line
terminators), used by `import_statement_regex` (`await\s+import\(\s*…`). -/
def jsWhitespace (c : Char) : Bool :=
  c = ' ' || c = '\t' || c = '\n' || c = '\r' || c = '\x0b' || c = '\x0c' ||
  c.val = 0xa0 || c.val = 0x1680 || (0x2000 ≤ c.val && c.val ≤ 0x200a) ||
  c.val = 0x2028 || c.val = 0x2029 || c.val = 0x202f || c.val = 0x205f ||
  c.val = 0x3000 || c.val = 0xfeff

/-- The character class `[\,\;]` used by both regexes of `loader.ts` for
minification-artifact statement delimiters. -/
def sepChar (c : Char) : Bool :=
  c = ',' || c = ';'

/-- One hexadecimal digit (lower case), as produced by `JSON.stringify` for
control-character escapes. -/
def hexChar (n : Nat) : Char :=
  if n < 10 then Char.ofNat ('0'.toNat + n) else Char.ofNat ('a'.toNat + (n - 10))

/-- How `JSON.stringify` escapes a single character of a string. -/
def json_escape_char (c : Char) : JStr :=
  if c = '"' then ['\\', '"']
  else if c = '\\' then ['\\', '\\']
  else if c = '\x08' then ['\\', 'b']
  else if c = '\x0c' then ['\\', 'f']
  else if c = '\n' then ['\\', 'n']
  else if c = '\r' then ['\\', 'r']
  else if c = '\t' then ['\\', 't']
  else if c.toNat < 0x20 then ['\\', 'u', '0', '0', hexChar (c.toNat / 16), hexChar (c.toNat % 16)]
  else [c]

/-- `JSON.stringify` on a string value (the `json_stringify` alias of
`deps.ts`, applied to the string keys and paths in `deps_list_to_js_fn`). -/
def json_stringify (s : JStr) : JStr :=
  '"' :: (s.map json_escape_char).flatten ++ ['"']

/-- The closing-tag text `"/script>"` looked ahead by the third alternative of
`escape_regex_for_string_raw` (`/(\$)|(\`)|(\<\/script\>)/g`). -/
def closeTagTail : JStr := "/script>".data

/-- One pass of `content.replaceAll(escape_regex_for_string_raw, "${\"$&\"}")`
(fuelled; the fuel is an upper bound on the number of characters scanned).
Each occurrence of `$`, of a backtick, or of `</script>` is replaced by the
template-substitution wrapper `${"<match>"}`. -/
def escRawF : Nat → JStr → JStr
  | 0, s => s
  | _, [] => []
  | fuel + 1, c :: rest =>
    if c = '$' then "$\x7b\"$\"\x7d".data ++ escRawF fuel rest
    else if c = backtick then "$\x7b\"`\"\x7d".data ++ escRawF fuel rest
    else if c = '<' ∧ closeTagTail.isPrefixOf rest then
      "$\x7b\"</script>\"\x7d".data ++ escRawF fuel (rest.drop 8)
    else c :: escRawF fuel rest

/-- `content.replaceAll(escape_regex_for_string_raw, "${\"$&\"}")` from
`GenericLoader.contentExportJs`. -/
def escape_for_string_raw (s : JStr) : JStr := escRawF s.length s

/-- `GenericLoader.contentExportJs`: the script fragment
``export const content = String.raw`…`  ``, with the self-substitution
escaping applied to the content. -/
def contentExportJs (content : JStr) : JStr :=
  "export const content = String.raw`".data ++ escape_for_string_raw content ++ "`\n".data

/-- The begin marker `globalThis.start_of_imports()` of `loader.ts`. -/
def imports_beginning_marker : JStr := "globalThis.start_of_imports()".data

/-- The end marker `globalThis.end_of_imports()` of `loader.ts`. -/
def imports_ending_marker : JStr := "globalThis.end_of_imports()".data

/-- The statement pair emitted by `deps_list_to_js_fn` for one key/path pair:
`\nimportKeys.push(<json(key)>)\nawait import(<json(path)>)`. -/
def dep_pair_to_js (kp : JStr × JStr) : JStr :=
  "\nimportKeys.push(".data ++ json_stringify kp.1 ++
    ")\nawait import(".data ++ json_stringify kp.2 ++ ")".data

/-- `[...deps_list_to_js_fn(importKeys, importPaths)].flatten("")`: the marked
import-statement block body (the zip stops at the shorter list, as the
iterator-zip of the library does). -/
def deps_list_to_js (keys paths : List JStr) : JStr :=
  ((keys.zip paths).map dep_pair_to_js).flatten

/-- `ContentDependencies` of `typedefs.ts`, at the default key type
`K = string`. -/
structure ContentDependencies where
  importKeys : List JStr
  importPaths : List JStr
  content : JStr
deriving DecidableEq

/-- `ImportMetadataEntry` of `typedefs.ts` (`in`/`out` are reserved-ish words,
so they are called `inPath`/`outPath` here). -/
structure ImportMetadataEntry where
  key : JStr
  inPath : JStr
  outPath : JStr
deriving DecidableEq

/-- The two abstract policy methods of `GenericLoader` that a subclass must
implement (`extractDeps` and `insertDeps`), modelled as pure functions. -/
structure LoaderPolicy where
  extractDeps : JStr → ContentDependencies
  insertDeps : ContentDependencies → JStr

/-- The mutable state of one `GenericLoader` instance: its configuration flag
`config.meta` and the accumulated `meta.imports` list. -/
structure LoaderState where
  configMeta : Bool
  metaImports : List ImportMetadataEntry
deriving DecidableEq

/-- The compile-time flag `DEBUG.META = 1` of `src/deps.ts`. -/
def DEBUG_META : Bool := true

/-- The compile-time flag `DEBUG.ASSERT = 1` of `src/deps.ts`. -/
def DEBUG_ASSERT : Bool := true

/-- The metadata entries appended by `parseToJs` (one `{key, in, out: ""}`
record per zipped key/path pair, in order). -/
def parseToJsMetaEntries (keys paths : List JStr) : List ImportMetadataEntry :=
  (keys.zip paths).map (fun kp => ⟨kp.1, kp.2, []⟩)

/-- `GenericLoader.parseToJs`: extract the dependencies, emit the wrapper
script (exported `importKeys` array, begin marker, statement pairs, end
marker, content export), and record the `in`-phase metadata. -/
def parseToJs (P : LoaderPolicy) (st : LoaderState) (raw : JStr) : JStr × LoaderState :=
  let d := P.extractDeps raw
  let js :=
    "\nexport const importKeys = []\n".data ++
    imports_beginning_marker ++ "\n".data ++
    deps_list_to_js d.importKeys d.importPaths ++ "\n".data ++
    imports_ending_marker ++ "\n".data ++
    contentExportJs d.content
  let st' :=
    if DEBUG_META then
      { st with metaImports := st.metaImports ++ parseToJsMetaEntries d.importKeys d.importPaths }
    else st
  (js, st')

/-- Split a string at the first occurrence of `pat`: returns the part before
the occurrence and the part after it.  `none` when `pat` does not occur. -/
def splitFirstOcc (pat : JStr) : JStr → Option (JStr × JStr)
  | [] => if pat.isEmpty then some ([], []) else none
  | c :: rest =>
    if pat.isPrefixOf (c :: rest) then some ([], (c :: rest).drop pat.length)
    else (splitFirstOcc pat rest).map (fun uv => (c :: uv.1, uv.2))

/-- The ECMAScript LineTerminator characters (LF, CR, LS, PS), which the
`.` of a regular expression without the `s` flag never matches. -/
def lineTerminator (c : Char) : Bool :=
  c = '\n' || c = '\r' || c.val = 0x2028 || c.val = 0x2029

/-- A string free of LineTerminator characters, as required for a capture of
the `s`-flag-less `(?<importPath>.*?)` group of `import_statement_regex`. -/
def noLineTerm (s : JStr) : Bool := s.all (fun c => !lineTerminator c)

/-- The lazy-group closing scan of `import_statement_regex`
(`…"(?<importPath>.*?)"\s*\)…`): find the least split of the text after the
opening quote at a `"` that is followed by optional whitespace and `)`;
returns the captured path and the text after the `)`.  The regex has no `s`
flag, so the lazy `.*?` group cannot extend across a LineTerminator: hitting
one before the closing quote fails the whole match. -/
def findQuoteClose : JStr → Option (JStr × JStr)
  | [] => none
  | c :: rest =>
    if c = '"' ∧ (rest.dropWhile jsWhitespace).headD ' ' = ')' then
      some ([], (rest.dropWhile jsWhitespace).tail)
    else if lineTerminator c then none
    else (findQuoteClose rest).map (fun pr => (c :: pr.1, pr.2))

/-- Matching of `import_statement_regex`
(`await\s+import\(\s*"(?<importPath>.*?)"\s*\)[\,\;]*`) anchored at the start
of `s`: on success, the captured import path and the rest of the string after
the match (the trailing `[,;]*` being consumed greedily). -/
def matchImportAt (s : JStr) : Option (JStr × JStr) :=
  if "await".data.isPrefixOf s then
    let r1 := s.drop 5
    if (r1.takeWhile jsWhitespace).isEmpty then none
    else
      let r2 := r1.dropWhile jsWhitespace
      if "import(".data.isPrefixOf r2 then
        match (r2.drop 7).dropWhile jsWhitespace with
        | [] => none
        | q :: r4 =>
          if q = '"' then
            match findQuoteClose r4 with
            | some (p, r5) => some (p, r5.dropWhile sepChar)
            | none => none
          else none
      else none
  else none

/-- The inner `replaceAll(import_statement_regex, …)` of `unparseFromJs`
(fuelled): scan left to right, delete every import statement, and collect the
captured paths in order. -/
def stripImportsF : Nat → JStr → JStr × List JStr
  | 0, s => (s, [])
  | _, [] => ([], [])
  | fuel + 1, c :: rest =>
    match matchImportAt (c :: rest) with
    | some (p, after) =>
      let pr := stripImportsF fuel after
      (pr.1, p :: pr.2)
    | none =>
      let pr := stripImportsF fuel rest
      (c :: pr.1, pr.2)

/-- The import-statement deletion pass over one marked block body. -/
def stripImports (s : JStr) : JStr × List JStr := stripImportsF s.length s

/-- The outer `replaceAll(import_statements_block_regex, …)` of
`unparseFromJs` (fuelled): find each
`begin-marker [,;]* (.*?) end-marker` match (lazy group, global scan),
replace it by the body with all import statements stripped, and collect all
captured import paths.  A begin marker with no later end marker matches
nothing, like the regex. -/
def blockRAF : Nat → JStr → JStr × List JStr
  | 0, s => (s, [])
  | fuel + 1, s =>
    match splitFirstOcc imports_beginning_marker s with
    | none => (s, [])
    | some (pre, r1) =>
      match splitFirstOcc imports_ending_marker (r1.dropWhile sepChar) with
      | none => (s, [])
      | some (g, r3) =>
        let gp := stripImports g
        let tp := blockRAF fuel r3
        (pre ++ gp.1 ++ tp.1, gp.2 ++ tp.2)

/-- `js_content.replaceAll(import_statements_block_regex, …)` together with
the `importPaths` accumulated by the replacement callbacks. -/
def blockReplaceAll (s : JStr) : JStr × List JStr := blockRAF s.length s

/-- The value of a single-character JS string-literal escape sequence
(`\n`, `\t`, …); a NonEscapeCharacter stands for itself. -/
def jsEscValue (d : Char) : Char :=
  if d = 'n' then '\n'
  else if d = 't' then '\t'
  else if d = 'r' then '\r'
  else if d = 'b' then '\x08'
  else if d = 'f' then '\x0c'
  else if d = 'v' then '\x0b'
  else if d = '0' then '\x00'
  else d

/-- The numeric value of one hexadecimal digit. -/
def hexVal (c : Char) : Option Nat :=
  if '0' ≤ c ∧ c ≤ '9' then some (c.toNat - '0'.toNat)
  else if 'a' ≤ c ∧ c ≤ 'f' then some (c.toNat - 'a'.toNat + 10)
  else if 'A' ≤ c ∧ c ≤ 'F' then some (c.toNat - 'A'.toNat + 10)
  else none

/-- JS evaluation of the body of a double-quoted string literal, starting
just after the opening quote: returns the string value and the rest of the
input after the closing quote.  Handles the escape sequences `JSON.stringify`
and ordinary code can contain (`\"`, `\\`, single-character escapes,
`\uXXXX`, `\xXX`, line continuations); a raw line terminator in the literal
is a syntax error (`none`). -/
def evalJsStrLit : JStr → Option (JStr × JStr)
  | [] => none
  | c :: rest =>
    if c = '"' then some ([], rest)
    else if c = '\n' ∨ c = '\r' then none
    else if c = '\\' then
      match rest with
      | [] => none
      | d :: r2 =>
        if d = 'u' then
          match r2 with
          | h1 :: h2 :: h3 :: h4 :: r3 =>
            match hexVal h1, hexVal h2, hexVal h3, hexVal h4 with
            | some a, some b, some e, some f =>
              (evalJsStrLit r3).map
                (fun vr => (Char.ofNat (((a * 16 + b) * 16 + e) * 16 + f) :: vr.1, vr.2))
            | _, _, _, _ => none
          | _ => none
        else if d = 'x' then
          match r2 with
          | h1 :: h2 :: r3 =>
            match hexVal h1, hexVal h2 with
            | some a, some b =>
              (evalJsStrLit r3).map (fun vr => (Char.ofNat (a * 16 + b) :: vr.1, vr.2))
            | _, _ => none
          | _ => none
        else if d = '\n' ∨ d = '\r' then
          (evalJsStrLit r2).map (fun vr => vr)
        else
          (evalJsStrLit r2).map (fun vr => (jsEscValue d :: vr.1, vr.2))
    else (evalJsStrLit rest).map (fun vr => (c :: vr.1, vr.2))

/-- JS evaluation of the expression inside one template substitution as the
generated scripts contain them: a double-quoted string literal followed by
the closing brace.  Returns the value and the rest after the brace. -/
def evalTemplateSub (s : JStr) : Option (JStr × JStr) :=
  match s with
  | '"' :: r1 =>
    match evalJsStrLit r1 with
    | some (v, r2) =>
      match r2 with
      | '\x7d' :: r3 => some (v, r3)
      | _ => none
    | none => none
  | _ => none

/-- Characters that can separate the statements of the residual module when
it is evaluated: whitespace and the `;`/`,` delimiters left by minification
(a `,` chains the push calls into one comma expression). -/
def statementSep (c : Char) : Bool :=
  jsWhitespace c || c = ';' || c = ','

/-- JS evaluation of a `String.raw` tagged template, starting just after the
opening backtick (fuelled): raw text is kept verbatim except that, following
the template raw value (TRV) rules of ECMA-262, the line terminator sequences
`<CR>` and `<CR><LF>` are normalized to a single `<LF>`; a backslash keeps
both itself and the following character raw (suppressing any special meaning
of that character, with the same `<CR>`/`<CR><LF>` normalization after the
backslash of a line continuation), `${…}` substitutions are evaluated by
`evalTemplateSub` and spliced in, and an unescaped backtick closes the
template.  Returns the raw value and the rest of the input after the closing
backtick; `none` models a syntax error (unterminated template or unsupported
substitution). -/
def evalRawTemplateF : Nat → JStr → Option (JStr × JStr)
  | 0, _ => none
  | _, [] => none
  | fuel + 1, c :: rest =>
    if c = backtick then some ([], rest)
    else if c = '\r' then
      (evalRawTemplateF fuel (if rest.headD ' ' = '\n' then rest.tail else rest)).map
        (fun vr => ('\n' :: vr.1, vr.2))
    else if c = '\\' then
      match rest with
      | [] => none
      | d :: r2 =>
        if d = '\r' then
          (evalRawTemplateF fuel (if r2.headD ' ' = '\n' then r2.tail else r2)).map
            (fun vr => ('\\' :: '\n' :: vr.1, vr.2))
        else (evalRawTemplateF fuel r2).map (fun vr => ('\\' :: d :: vr.1, vr.2))
    else if c = '$' ∧ rest.headD ' ' = '\x7b' then
      match evalTemplateSub rest.tail with
      | some (v, r2) => (evalRawTemplateF fuel r2).map (fun vr => (v ++ vr.1, vr.2))
      | none => none
    else (evalRawTemplateF fuel rest).map (fun vr => (c :: vr.1, vr.2))

/-- JS evaluation of a `String.raw` tagged template (fuel instantiated). -/
def evalRawTemplate (s : JStr) : Option (JStr × JStr) := evalRawTemplateF s.length s

/-- JS evaluation of the fragment produced by `contentExportJs`: the exported
`content` value, obtained by evaluating the `String.raw` template; the rest
of the fragment after the closing backtick must be trailing statement
separators only.  `none` models a syntax error during module evaluation. -/
def evalContentExport (s : JStr) : Option JStr :=
  if "export const content = String.raw`".data.isPrefixOf s then
    match evalRawTemplate (s.drop 34) with
    | some (v, r) => if (r.dropWhile statementSep).isEmpty then some v else none
    | none => none
  else none

/-- JS evaluation of the residual module's `importKeys.push("…")` statement
sequence followed by the content export (fuelled): accumulates the evaluated
key values in order, then evaluates the content template.  Returns the
`importKeys` array and the `content` string the dynamic `import()` of
`unparseFromJs` would observe; `none` models a syntax error. -/
def parsePushesF : Nat → JStr → List JStr → Option (List JStr × JStr)
  | 0, _, _ => none
  | fuel + 1, s, acc =>
    if "importKeys.push(\"".data.isPrefixOf s then
      match evalJsStrLit (s.drop 17) with
      | some (k, r2) =>
        if r2.headD ' ' = ')' then parsePushesF fuel (r2.tail.dropWhile statementSep) (acc ++ [k])
        else none
      | none => none
    else
      match evalContentExport s with
      | some content => some (acc, content)
      | none => none

/-- `parsePushesF` at its canonical fuel. -/
def parsePushes (s : JStr) (acc : List JStr) : Option (List JStr × JStr) :=
  parsePushesF s.length s acc

/-- JS evaluation of the residual module produced by the block replacement of
`unparseFromJs`: after leading separators it must declare
`export const importKeys = []`, then any number of `importKeys.push("…")`
statements, then the content export.  Returns the evaluated `importKeys` and
`content` exports; `none` models a failing dynamic `import()`. -/
def evalModule (s : JStr) : Option (List JStr × JStr) :=
  if "export const importKeys = []".data.isPrefixOf (s.dropWhile statementSep) then
    parsePushesF s.length (((s.dropWhile statementSep).drop 28).dropWhile statementSep) []
  else none

/-- The metadata reconciliation loop of `unparseFromJs`: walk the zipped
(evaluated key, recovered path, metadata entry) triples (stopping at the
shortest list, as `zipArrays` does), compare each evaluated key with the
recorded key by `json_stringify`, and populate the `out` field; `none`
models the thrown key-mismatch error. -/
def updateMetaF : List JStr → List JStr → List ImportMetadataEntry →
    Option (List ImportMetadataEntry)
  | k :: ks, p :: ps, e :: es =>
    if json_stringify k ≠ json_stringify e.key then none
    else (updateMetaF ks ps es).map (fun t => { e with outPath := p } :: t)
  | _, _, es => some es

/-- `GenericLoader.unparseFromJs`: strip the marked import statements and
collect the transformed paths, dynamically evaluate the residual module to
recover `importKeys` and `content`, run the count and key integrity asserts
(`none` models the thrown integrity errors), populate the metadata `out`
fields, and hand the reconstructed dependency set to `insertDeps`. -/
def unparseFromJs (P : LoaderPolicy) (st : LoaderState) (js : JStr) :
    Option (JStr × LoaderState) :=
  let bp := blockReplaceAll js
  match evalModule bp.1 with
  | none => none
  | some (importKeys, content) =>
    let importPaths := bp.2
    let n := importKeys.length
    if DEBUG_ASSERT ∧
        (n ≠ importPaths.length ∨
          (DEBUG_META ∧ st.configMeta ∧ n ≠ st.metaImports.length)) then
      none
    else if DEBUG_META ∧ st.configMeta then
      match updateMetaF importKeys importPaths st.metaImports with
      | none => none
      | some newMeta =>
        some (P.insertDeps ⟨importKeys, importPaths, content⟩,
          { st with metaImports := newMeta })
    else
      some (P.insertDeps ⟨importKeys, importPaths, content⟩, st)

/-- The resource actions `unparseFromJs` performs for the dynamic evaluation
(lines 228–233 of `loader.ts`): it builds a `Blob`, creates an object URL for
it, and dynamically imports that URL.  No other resource action occurs in the
method. -/
inductive ResourceEvent where
  | createBlob
  | createObjectURL
  | importEval
  | revokeObjectURL
deriving DecidableEq

/-- The sequence of resource events of one `unparseFromJs` call on a script:
`new Blob([...])`, `URL.createObjectURL(js_blob)`, `await import(js_blob_url)`.
The method contains no `URL.revokeObjectURL` call. -/
def unparseResourceEvents (_js : JStr) : List ResourceEvent :=
  [ResourceEvent.createBlob, ResourceEvent.createObjectURL, ResourceEvent.importEval]

/-- `math_min(...arrays.map(arr => arr.length))` of `funcdefs.ts`:
`Math.min` of the list of lengths.  `Math.min()` of no arguments is
`Infinity`, which makes the subsequent `for` loop of `zipArrays` run forever;
that case is represented by `none`. -/
def arraysMinLen (arrays : List (List α)) : Option Nat :=
  match arrays.map List.length with
  | [] => none
  | n :: ns => some (ns.foldl Nat.min n)

/-- The tuple `arrays.map(arr => arr[i])` read by iteration `i` of the loops
of `zipArrays` and `zipArraysMapperFactory` (for `i` below every length the
index never misses). -/
def zipTupleAt (arrays : List (List α)) (i : Nat) : List α :=
  arrays.filterMap (fun arr => arr.get? i)

/-- `zipArrays` of `funcdefs.ts`: zip the input arrays positionally into
tuples, stopping at the length of the shortest input.  With no input arrays
the loop bound is `Math.min() = Infinity` and the loop never terminates,
modelled by `none`. -/
def zipArrays (arrays : List (List α)) : Option (List (List α)) :=
  match arraysMinLen arrays with
  | none => none
  | some minLen => some ((List.range minLen).map (zipTupleAt arrays))

/-- `zipArraysMapperFactory` of `funcdefs.ts`: the mapper it returns applies
`map_fn` to each positional tuple and its index, stopping at the shortest
input; with no input arrays the loop never terminates (`none`). -/
def zipArraysMapperFactory (map_fn : List α → Nat → β) :
    List (List α) → Option (List β) := fun arrays =>
  match arraysMinLen arrays with
  | none => none
  | some minLen => some ((List.range minLen).map (fun i => map_fn (zipTupleAt arrays i) i))

/-- Characters that `JSON.stringify` leaves unescaped in a string: everything
except the quote, the backslash and the control characters. -/
def jsonPlainChar (c : Char) : Bool :=
  0x20 ≤ c.toNat && c ≠ '"' && c ≠ '\\'

/-- A string whose `JSON.stringify` image is itself wrapped in quotes. -/
def jsonPlain (s : JStr) : Bool := s.all jsonPlainChar

/-- Contents whose `String.raw`-escaping round-trips through tagged-template
evaluation: no carriage return anywhere (the template raw value normalizes
`<CR>` and `<CR><LF>` to `<LF>`, so a CR never survives byte-for-byte), no
backslash at the end of the string, and no backslash directly in front of an
occurrence of `$`, of a backtick, or of `</script>` (such a backslash would
swallow the first character of the inserted `${"…"}` wrapper, or escape the
closing delimiter). -/
def rawSafe : JStr → Bool
  | [] => true
  | c :: rest =>
    if c = '\r' then false
    else if c = '\\' then
      match rest with
      | [] => false
      | d :: r2 =>
        !(d = '$' || d = backtick || d = '\r' ||
            (d = '<' && closeTagTail.isPrefixOf r2)) && rawSafe r2
    else rawSafe rest

/-- Modelled from the spec (§6 marker grammar and §4.3 wrap steps 2–4): the
wrapped script is the exported empty `importKeys` array declaration, the
begin marker, one `importKeys.push(<json(key)>)` + `await import(<json(path)>)`
statement pair per dependency in extraction order, the end marker, and the
content-export fragment. -/
def specWrappedScript (pairs : List (JStr × JStr)) (content_fragment : JStr) : JStr :=
  "\nexport const importKeys = []\n".data ++
  "globalThis.start_of_imports()".data ++ "\n".data ++
  (pairs.flatMap (fun kp =>
    "\nimportKeys.push(".data ++ json_stringify kp.1 ++
    ")\nawait import(".data ++ json_stringify kp.2 ++ ")".data)) ++ "\n".data ++
  "globalThis.end_of_imports()".data ++ "\n".data ++
  content_fragment

/-- A transformed marked region in which the statements are separated by the
separator `sep` instead of newlines (simulating minifier output): the begin
marker, then each statement preceded by `sep`, then `sep` and the end marker,
followed by the rest of the script. -/
def sepVariantScript (sep : JStr) (stmts : List JStr) (tail : JStr) : JStr :=
  imports_beginning_marker ++
  (stmts.flatMap (fun stmt => sep ++ stmt)) ++ sep ++
  imports_ending_marker ++ tail

/-- The statement list of a marked region: the push/import statement pairs
for the given keys and paths, flattened in order. -/
def pairStmts (keys paths : List JStr) : List JStr :=
  (keys.zip paths).flatMap (fun kp =>
    ["importKeys.push(".data ++ json_stringify kp.1 ++ ")".data,
     "await import(".data ++ json_stringify kp.2 ++ ")".data])

/-- The residue of one statement pair after `unparseFromJs` deletes its
`await import(…)` statement: the key-push statement with its surrounding
newlines. -/
def dep_pair_residual (kp : JStr × JStr) : JStr :=
  "\nimportKeys.push(".data ++ json_stringify kp.1 ++ ")\n".data

/-- The key-push residue for a single key (what `dep_pair_residual` keeps of
a pair). -/
def key_push_residual (k : JStr) : JStr :=
  "\nimportKeys.push(".data ++ json_stringify k ++ ")\n".data

/-- A trivial conforming policy: it extracts no dependencies and reinstalls
the content verbatim, so `insertDeps (extractDeps raw) = raw` for every
document. -/
def trivPolicy : LoaderPolicy :=
  ⟨fun raw => ⟨[], [], raw⟩, fun d => d.content⟩

/-- A conforming single-dependency policy: every document depends on the one
module `"./a.js"` under the key `"k"`, and the content carries the whole
document, so `insertDeps (extractDeps raw) = raw` for every document. -/
def oneDepPolicy : LoaderPolicy :=
  ⟨fun raw => ⟨["k".data], ["./a.js".data], raw⟩, fun d => d.content⟩

/-- A loader state with metadata collection disabled. -/
def st0 : LoaderState := ⟨false, []⟩

/-- A loader state with metadata collection enabled and no recorded
entries. -/
def stMeta : LoaderState := ⟨true, []⟩

/-- A loader state with metadata collection enabled and one recorded entry
for the key `"k1"` (its `in` path `"p1"`, its `out` path unpopulated). -/
def stOneMeta : LoaderState := ⟨true, [⟨"k1".data, "p1".data, []⟩]⟩

/-- A content string that already contains both sentinel markers. -/
def collisionContent : JStr :=
  "globalThis.start_of_imports()\nglobalThis.end_of_imports()".data

/-- A content string exercising every escape class of
`escape_for_string_raw`: a template-substitution trigger `$`, a template
delimiter backtick, and the closing-tag sequence `</script>`. -/
def hazardContent : JStr := "a$b`c</script>d".data

/-- A transformed script with no marked region (so no import statement is
recovered) whose module evaluation still pushes one key: the count-integrity
assert of `unparseFromJs` must reject it. -/
def mismatchScript : JStr :=
  ("\nexport const importKeys = []\nimportKeys.push(\"k\")\n" ++
    "export const content = String.raw`x`").data

/-- A transformed script whose marked region imports the path `"q"` and whose
module evaluation pushes the key `"k2"`: against recorded metadata for the
key `"k1"`, the key-identity check of `unparseFromJs` must reject it. -/
def metaMismatchScript : JStr :=
  ("globalThis.start_of_imports()\nawait import(\"q\")\n" ++
    "globalThis.end_of_imports()\nexport const importKeys = []\n" ++
    "importKeys.push(\"k2\")\nexport const content = String.raw`x`").data

/-! ### A toolkit for first-occurrence and non-occurrence reasoning -/

theorem prefix_split {l u v : List Char} (h : l <+: u ++ v) (hl : l.length ≤ u.length) :
    l <+: u := by
  rw [List.prefix_iff_eq_take, List.take_append_of_le_length hl] at h
  rw [h]
  exact List.take_prefix _ _

theorem prefix_take_of_le {l b : List Char} {n : Nat} (h : l <+: b) (hl : l.length ≤ n) :
    l <+: b.take n := by
  rw [List.prefix_iff_eq_take] at h ⊢
  rw [List.take_take, Nat.min_eq_left hl]
  exact h

theorem infix_append_cases {l a b : List Char} (h : l <:+: a ++ b) :
    l <:+: a ∨ l <:+: b ∨
      ∃ l₁ l₂, l = l₁ ++ l₂ ∧ l₁ ≠ [] ∧ l₂ ≠ [] ∧ l₁ <:+ a ∧ l₂ <+: b := by
  induction a with
  | nil => right; left; simpa using h
  | cons c a ih =>
    rw [List.cons_append, List.infix_cons_iff] at h
    cases h with
    | inl hpre =>
      cases l with
      | nil => left; exact List.nil_infix
      | cons x l' =>
        obtain ⟨t, ht⟩ := hpre
        rw [List.cons_append] at ht
        injection ht with h1 h2
        subst h1
        have hl' : l' <+: a ++ b := ⟨t, h2⟩
        by_cases hlen : l'.length ≤ a.length
        · left
          exact (List.cons_prefix_cons.mpr ⟨rfl, prefix_split hl' hlen⟩).isInfix
        · push_neg at hlen
          have ha : a <+: l' :=
            List.prefix_of_prefix_length_le (List.prefix_append a b) hl' (Nat.le_of_lt hlen)
          obtain ⟨rest, hrest⟩ := ha
          have hrb : rest <+: b := by
            obtain ⟨t2, ht2⟩ := hl'
            refine ⟨t2, ?_⟩
            have hx : a ++ (rest ++ t2) = a ++ b := by
              rw [← List.append_assoc, hrest, ht2]
            exact List.append_cancel_left hx
          by_cases hr : rest = []
          · subst hr
            left
            rw [List.append_nil] at hrest
            rw [← hrest]
          · right; right
            refine ⟨x :: a, rest, ?_, by simp, hr, List.suffix_refl _, hrb⟩
            simp [← hrest]
    | inr hinf =>
      rcases ih hinf with h1 | h1 | ⟨l₁, l₂, he, hn1, hn2, hs, hp⟩
      · left; exact List.infix_cons h1
      · right; left; exact h1
      · right; right
        exact ⟨l₁, l₂, he, hn1, hn2, hs.trans (List.suffix_cons c a), hp⟩

theorem infix_dropLast_of_early_isPrefix {pat a b : List Char} (hpat : pat ≠ [])
    (ha : a ≠ []) (h : pat <+: a ++ (pat ++ b)) : pat <:+: a ++ pat.dropLast := by
  have hp1 : 0 < pat.length := List.length_pos.mpr hpat
  have hp0 : 0 < a.length := List.length_pos.mpr ha
  have hlen : pat.length ≤ (a ++ pat.dropLast).length := by
    have h2 : (a ++ pat.dropLast).length = a.length + (pat.length - 1) := by
      simp [List.length_dropLast]
    omega
  refine (prefix_split (v := pat.getLast hpat :: b) ?_ hlen).isInfix
  have hsplit : a ++ (pat ++ b) = (a ++ pat.dropLast) ++ (pat.getLast hpat :: b) := by
    conv_lhs => rw [← List.dropLast_append_getLast hpat]
    simp [List.append_assoc]
  rw [← hsplit]
  exact h

theorem not_infix_of_infix_not {pat s t : List Char} (hsub : s <:+: t)
    (h : ¬ pat <:+: t) : ¬ pat <:+: s :=
  fun hc => h (hc.trans hsub)

theorem getLast?_of_suffix {l a : List Char} (h : l <:+ a) (hne : l ≠ []) :
    a.getLast? = l.getLast? := by
  obtain ⟨u, hu⟩ := h
  rw [← hu, List.getLast?_append]
  cases hgl : l.getLast? with
  | none => exact absurd (List.getLast?_eq_none_iff.mp hgl) hne
  | some y => rfl

theorem head?_of_isPrefix {l b : List Char} (h : l <+: b) (hne : l ≠ []) :
    b.head? = l.head? := by
  obtain ⟨u, hu⟩ := h
  rw [← hu, List.head?_append]
  cases hh : l.head? with
  | none => exact absurd (List.head?_eq_none_iff.mp hh) hne
  | some y => rfl

/-- No occurrence of `pat` can straddle the junction of `a ++ b` when the
last character of `a` is not a character of `pat`. -/
theorem not_infix_append_left {pat a b : List Char} {x : Char}
    (ha : ¬ pat <:+: a) (hb : ¬ pat <:+: b)
    (hx : a.getLast? = some x) (hmem : x ∉ pat) : ¬ pat <:+: a ++ b := by
  intro h
  rcases infix_append_cases h with h1 | h1 | ⟨l₁, l₂, he, hn1, _, hs, _⟩
  · exact ha h1
  · exact hb h1
  · have hgl : l₁.getLast? = some x := (getLast?_of_suffix hs hn1) ▸ hx
    exact hmem (he ▸ List.mem_append_left l₂ (List.mem_of_mem_getLast? hgl))

/-- No occurrence of `pat` can straddle the junction of `a ++ b` when the
first character of `b` is not a character of `pat`. -/
theorem not_infix_append_right {pat a b : List Char} {y : Char}
    (ha : ¬ pat <:+: a) (hb : ¬ pat <:+: b)
    (hy : b.head? = some y) (hmem : y ∉ pat) : ¬ pat <:+: a ++ b := by
  intro h
  rcases infix_append_cases h with h1 | h1 | ⟨l₁, l₂, he, _, hn2, _, hp⟩
  · exact ha h1
  · exact hb h1
  · have hh : l₂.head? = some y := (head?_of_isPrefix hp hn2) ▸ hy
    exact hmem (he ▸ List.mem_append_right l₁ (List.mem_of_mem_head? hh))

/-- `splitFirstOcc` on a string that does not contain the pattern. -/
theorem splitFirstOcc_of_not_infix {pat s : List Char} (hpat : pat ≠ [])
    (h : ¬ pat <:+: s) : splitFirstOcc pat s = none := by
  induction s with
  | nil =>
    rw [splitFirstOcc, if_neg]
    simpa [List.isEmpty_iff] using hpat
  | cons c rest ih =>
    have hnp : ¬ (pat.isPrefixOf (c :: rest) = true) := fun hpre =>
      h ((List.isPrefixOf_iff_prefix.mp hpre).isInfix)
    rw [splitFirstOcc, if_neg hnp, ih (fun hc => h (List.infix_cons hc))]
    rfl

/-- `splitFirstOcc` finds the designated occurrence when no occurrence starts
earlier. -/
theorem splitFirstOcc_first {pat a b : List Char} (hpat : pat ≠ [])
    (hno : ¬ pat <:+: a ++ pat.dropLast) :
    splitFirstOcc pat (a ++ (pat ++ b)) = some (a, b) := by
  induction a with
  | nil =>
    simp only [List.nil_append]
    cases pat with
    | nil => exact absurd rfl hpat
    | cons p pt =>
      rw [List.cons_append, splitFirstOcc]
      rw [if_pos (List.isPrefixOf_iff_prefix.mpr
        (by rw [← List.cons_append]; exact List.prefix_append _ _))]
      rw [← List.cons_append, List.drop_left]
  | cons c a ih =>
    rw [List.cons_append, splitFirstOcc]
    have hnp : ¬ (pat.isPrefixOf (c :: (a ++ (pat ++ b))) = true) := by
      intro hpre
      have h2 : pat <+: (c :: a) ++ (pat ++ b) := by
        rw [List.cons_append]
        exact List.isPrefixOf_iff_prefix.mp hpre
      exact hno (infix_dropLast_of_early_isPrefix hpat (by simp) h2)
    have hno2 : ¬ pat <:+: a ++ pat.dropLast := by
      intro hc
      exact hno (by rw [List.cons_append]; exact List.infix_cons hc)
    rw [if_neg hnp, ih hno2]
    rfl

/-! ### Length and fuel lemmas for the scanners -/

theorem findQuoteClose_length {s p r : List Char} (h : findQuoteClose s = some (p, r)) :
    r.length < s.length := by
  induction s generalizing p r with
  | nil => simp [findQuoteClose] at h
  | cons c rest ih =>
    rw [findQuoteClose] at h
    by_cases hc : c = '"' ∧ (rest.dropWhile jsWhitespace).headD ' ' = ')'
    · rw [if_pos hc] at h
      injection h with h1
      have h3 : (rest.dropWhile jsWhitespace).tail = r := congrArg Prod.snd h1
      have h4 : (rest.dropWhile jsWhitespace).length ≤ rest.length :=
        (List.dropWhile_suffix jsWhitespace).length_le
      have h5 : (rest.dropWhile jsWhitespace).tail.length =
          (rest.dropWhile jsWhitespace).length - 1 := by
        rw [List.length_tail]
      rw [← h3]
      simp only [List.length_cons]
      omega
    · rw [if_neg hc] at h
      by_cases hlt : lineTerminator c = true
      · rw [if_pos hlt] at h
        exact absurd h (by simp)
      · rw [if_neg hlt] at h
        cases hfq : findQuoteClose rest with
        | none => rw [hfq] at h; simp at h
        | some pr =>
          rw [hfq] at h
          have h2 : pr.2 = r := by
            have := congrArg (Option.map Prod.snd) h.symm
            simpa using this.symm
          have h6 : pr.2.length < rest.length := ih (by rw [hfq])
          rw [← h2]
          simp only [List.length_cons]
          omega

theorem matchImportAt_length {s p after : List Char}
    (h : matchImportAt s = some (p, after)) : after.length < s.length := by
  rw [matchImportAt] at h
  by_cases h1 : "await".data.isPrefixOf s = true
  case neg => rw [if_neg h1] at h; exact absurd h (by simp)
  rw [if_pos h1] at h
  by_cases h2 : ((s.drop 5).takeWhile jsWhitespace).isEmpty = true
  case pos => simp only [h2, if_pos] at h; exact absurd h (by simp)
  rw [if_neg h2] at h
  by_cases h3 : "import(".data.isPrefixOf ((s.drop 5).dropWhile jsWhitespace) = true
  case neg => rw [if_neg h3] at h; exact absurd h (by simp)
  rw [if_pos h3] at h
  have hs5 : (s.drop 5).length ≤ s.length := by
    rw [List.length_drop]; omega
  have hdw : ((s.drop 5).dropWhile jsWhitespace).length ≤ (s.drop 5).length :=
    (List.dropWhile_suffix jsWhitespace).length_le
  -- the string is nonempty before "await": 5 ≤ s.length
  have hslen : 5 ≤ s.length := by
    have := (List.isPrefixOf_iff_prefix.mp h1).length_le
    simpa using this
  -- takeWhile nonempty means drop 5 has a whitespace head, so lengths shrink
  have h2' : 1 ≤ ((s.drop 5).takeWhile jsWhitespace).length := by
    cases htw : (s.drop 5).takeWhile jsWhitespace with
    | nil => exact absurd (by rw [htw]; rfl) h2
    | cons y ys => simp
  have hsum : ((s.drop 5).takeWhile jsWhitespace).length +
      ((s.drop 5).dropWhile jsWhitespace).length = (s.drop 5).length := by
    rw [← List.length_append, List.takeWhile_append_dropWhile]
  cases hm : (((s.drop 5).dropWhile jsWhitespace).drop 7).dropWhile jsWhitespace with
  | nil => rw [hm] at h; exact absurd h (by simp)
  | cons q r4 =>
    rw [hm] at h
    dsimp only [] at h
    by_cases hq : q = '"'
    case neg => rw [if_neg hq] at h; exact absurd h (by simp)
    rw [if_pos hq] at h
    cases hfq : findQuoteClose r4 with
    | none => rw [hfq] at h; exact absurd h (by simp)
    | some pr =>
      rw [hfq] at h
      have h5 : pr.2.dropWhile sepChar = after := congrArg Prod.snd (Option.some.inj h)
      have h6 : pr.2.length < r4.length := findQuoteClose_length (by rw [hfq])
      have h7 : after.length ≤ pr.2.length := by
        rw [← h5]; exact (List.dropWhile_suffix sepChar).length_le
      have h8 : (q :: r4).length ≤
          (((s.drop 5).dropWhile jsWhitespace).drop 7).length := by
        rw [← hm]
        exact (List.dropWhile_suffix jsWhitespace).length_le
      have h9 : (((s.drop 5).dropWhile jsWhitespace).drop 7).length ≤
          ((s.drop 5).dropWhile jsWhitespace).length := by
        rw [List.length_drop]; omega
      simp only [List.length_cons] at h8
      have e1 : (s.drop 5).length = s.length - 5 := by rw [List.length_drop]
      have e2 : (((s.drop 5).dropWhile jsWhitespace).drop 7).length =
          ((s.drop 5).dropWhile jsWhitespace).length - 7 := by rw [List.length_drop]
      omega

theorem splitFirstOcc_eq_append {pat s u v : List Char}
    (h : splitFirstOcc pat s = some (u, v)) : s = u ++ pat ++ v := by
  induction s generalizing u v with
  | nil =>
    rw [splitFirstOcc] at h
    by_cases hp : pat.isEmpty = true
    · rw [if_pos hp] at h
      injection h with h1
      have h2 : u = [] := (congrArg Prod.fst h1).symm
      have h3 : v = [] := (congrArg Prod.snd h1).symm
      subst h2; subst h3
      simpa [List.isEmpty_iff] using hp
    · rw [if_neg hp] at h
      exact absurd h (by simp)
  | cons c rest ih =>
    rw [splitFirstOcc] at h
    by_cases hp : pat.isPrefixOf (c :: rest) = true
    · rw [if_pos hp] at h
      injection h with h1
      have h2 : u = [] := (congrArg Prod.fst h1).symm
      have h3 : v = (c :: rest).drop pat.length := (congrArg Prod.snd h1).symm
      subst h2; subst h3
      have h4 := List.isPrefixOf_iff_prefix.mp hp
      rw [List.prefix_iff_eq_take] at h4
      conv_lhs => rw [← List.take_append_drop pat.length (c :: rest)]
      rw [← h4]
      simp
    · rw [if_neg hp] at h
      cases hr : splitFirstOcc pat rest with
      | none => rw [hr] at h; exact absurd h (by simp)
      | some pr =>
        rw [hr] at h
        have h2 : u = c :: pr.1 := by
          have := congrArg Prod.fst (Option.some.inj h)
          simpa using this.symm
        have h3 : v = pr.2 := by
          have := congrArg Prod.snd (Option.some.inj h)
          simpa using this.symm
        subst h2; subst h3
        have h4 : rest = pr.1 ++ pat ++ pr.2 := ih (by rw [hr])
        rw [List.cons_append, List.cons_append, ← h4]

theorem evalJsStrLit_length : ∀ (n : Nat) (s : List Char), s.length ≤ n → ∀ {v r : List Char},
    evalJsStrLit s = some (v, r) → r.length < s.length := by
  intro n
  induction n with
  | zero =>
    intro s hs v r h
    rw [List.length_eq_zero.mp (Nat.le_zero.mp hs)] at h ⊢
    simp [evalJsStrLit] at h
  | succ n ih =>
    intro s hs v r h
    rw [evalJsStrLit.eq_def] at h
    repeat' split at h
    all_goals
      first
        | exact Option.noConfusion h
        | (simp only [Option.map_eq_some'] at h
           obtain ⟨⟨v', r'⟩, hrec, hf⟩ := h
           simp only [Prod.mk.injEq] at hf
           obtain ⟨hf1, hf2⟩ := hf
           subst hf2
           have hlt := ih _ (by simp only [List.length_cons] at hs ⊢; omega) hrec
           simp only [List.length_cons] at hlt ⊢
           omega)
        | (simp only [Option.some.injEq, Prod.mk.injEq] at h
           obtain ⟨h1a, h1b⟩ := h
           subst h1b
           simp only [List.length_cons]
           omega)

theorem evalJsStrLit_len_lt {s v r : List Char} (h : evalJsStrLit s = some (v, r)) :
    r.length < s.length :=
  evalJsStrLit_length s.length s (Nat.le_refl _) h

theorem evalTemplateSub_length {s v r : List Char} (h : evalTemplateSub s = some (v, r)) :
    r.length < s.length := by
  rw [evalTemplateSub.eq_def] at h
  repeat' split at h
  · rename_i s1 r1 x p r2 r3 heq
    simp only [Option.some.injEq, Prod.mk.injEq] at h
    obtain ⟨h1, h2⟩ := h
    subst h2
    have hlt := evalJsStrLit_len_lt heq
    simp only [List.length_cons] at hlt ⊢
    omega
  all_goals exact Option.noConfusion h

theorem stripImportsF_nil (f : Nat) : stripImportsF f [] = ([], []) := by
  cases f <;> rfl

theorem stripImportsF_congr : ∀ (n : Nat) (s : List Char) (f g : Nat),
    s.length ≤ n → s.length ≤ f → s.length ≤ g →
    stripImportsF f s = stripImportsF g s := by
  intro n
  induction n with
  | zero =>
    intro s f g hn _ _
    rw [List.length_eq_zero.mp (Nat.le_zero.mp hn), stripImportsF_nil, stripImportsF_nil]
  | succ n ih =>
    intro s f g hn hf hg
    cases s with
    | nil => rw [stripImportsF_nil, stripImportsF_nil]
    | cons c rest =>
      simp only [List.length_cons] at hn hf hg
      cases f with
      | zero => omega
      | succ f2 =>
        cases g with
        | zero => omega
        | succ g2 =>
          rw [stripImportsF, stripImportsF]
          cases hm : matchImportAt (c :: rest) with
          | some pr =>
            obtain ⟨p, after⟩ := pr
            have hlen : after.length < rest.length + 1 := by
              have := @matchImportAt_length (c :: rest) p after (by rw [hm])
              simpa using this
            dsimp only []
            rw [ih after f2 g2 (by omega) (by omega) (by omega)]
          | none =>
            dsimp only []
            rw [ih rest f2 g2 (by omega) (by omega) (by omega)]

theorem stripImports_eqF {s : List Char} {f : Nat} (hf : s.length ≤ f) :
    stripImportsF f s = stripImports s :=
  stripImportsF_congr f s f s.length hf hf (Nat.le_refl _)

theorem escRawF_nil (f : Nat) : escRawF f [] = [] := by
  cases f <;> rfl

theorem escRawF_congr : ∀ (n : Nat) (s : List Char) (f g : Nat),
    s.length ≤ n → s.length ≤ f → s.length ≤ g →
    escRawF f s = escRawF g s := by
  intro n
  induction n with
  | zero =>
    intro s f g hn _ _
    rw [List.length_eq_zero.mp (Nat.le_zero.mp hn), escRawF_nil, escRawF_nil]
  | succ n ih =>
    intro s f g hn hf hg
    cases s with
    | nil => rw [escRawF_nil, escRawF_nil]
    | cons c rest =>
      simp only [List.length_cons] at hn hf hg
      cases f with
      | zero => omega
      | succ f2 =>
        cases g with
        | zero => omega
        | succ g2 =>
          rw [escRawF, escRawF]
          by_cases h1 : c = '$'
          · rw [if_pos h1, if_pos h1, ih rest f2 g2 (by omega) (by omega) (by omega)]
          · rw [if_neg h1, if_neg h1]
            by_cases h2 : c = backtick
            · rw [if_pos h2, if_pos h2, ih rest f2 g2 (by omega) (by omega) (by omega)]
            · rw [if_neg h2, if_neg h2]
              by_cases h3 : c = '<' ∧ closeTagTail.isPrefixOf rest
              · have hd : (rest.drop 8).length = rest.length - 8 := by
                  rw [List.length_drop]
                rw [if_pos h3, if_pos h3,
                  ih (rest.drop 8) f2 g2 (by omega) (by omega) (by omega)]
              · rw [if_neg h3, if_neg h3, ih rest f2 g2 (by omega) (by omega) (by omega)]

theorem escRawF_eq {s : List Char} {f : Nat} (hf : s.length ≤ f) :
    escRawF f s = escape_for_string_raw s :=
  escRawF_congr f s f s.length hf hf (Nat.le_refl _)

theorem evalRawTemplateF_congr : ∀ (n : Nat) (s : List Char) (f g : Nat),
    s.length ≤ n → s.length ≤ f → s.length ≤ g →
    evalRawTemplateF f s = evalRawTemplateF g s := by
  intro n
  induction n with
  | zero =>
    intro s f g hn _ _
    rw [List.length_eq_zero.mp (Nat.le_zero.mp hn)]
    cases f <;> cases g <;> rfl
  | succ n ih =>
    intro s f g hn hf hg
    cases s with
    | nil => cases f <;> cases g <;> rfl
    | cons c rest =>
      simp only [List.length_cons] at hn hf hg
      cases f with
      | zero => omega
      | succ f2 =>
        cases g with
        | zero => omega
        | succ g2 =>
          rw [evalRawTemplateF.eq_def, evalRawTemplateF.eq_def]
          dsimp only []
          by_cases h1 : c = backtick
          · rw [if_pos h1, if_pos h1]
          · rw [if_neg h1, if_neg h1]
            by_cases hcr : c = '\r'
            · rw [if_pos hcr, if_pos hcr]
              by_cases hnl : rest.headD ' ' = '\n'
              · rw [if_pos hnl]
                have htl : rest.tail.length ≤ rest.length := by cases rest <;> simp
                rw [ih rest.tail f2 g2 (by omega) (by omega) (by omega)]
              · rw [if_neg hnl]
                rw [ih rest f2 g2 (by omega) (by omega) (by omega)]
            rw [if_neg hcr, if_neg hcr]
            by_cases h2 : c = '\\'
            · rw [if_pos h2, if_pos h2]
              cases rest with
              | nil => rfl
              | cons d r2 =>
                dsimp only []
                simp only [List.length_cons] at hn hf hg
                by_cases hdr : d = '\r'
                · rw [if_pos hdr, if_pos hdr]
                  by_cases hnl : r2.headD ' ' = '\n'
                  · rw [if_pos hnl]
                    have htl : r2.tail.length ≤ r2.length := by cases r2 <;> simp
                    rw [ih r2.tail f2 g2 (by omega) (by omega) (by omega)]
                  · rw [if_neg hnl]
                    rw [ih r2 f2 g2 (by omega) (by omega) (by omega)]
                · rw [if_neg hdr, if_neg hdr]
                  rw [ih r2 f2 g2 (by omega) (by omega) (by omega)]
            · rw [if_neg h2, if_neg h2]
              by_cases h3 : c = '$' ∧ rest.headD ' ' = '\x7b'
              · rw [if_pos h3, if_pos h3]
                cases hts : evalTemplateSub rest.tail with
                | none => rfl
                | some pr =>
                  obtain ⟨v2, r2⟩ := pr
                  have hlt : r2.length < rest.tail.length :=
                    evalTemplateSub_length (s := rest.tail) (v := v2) (r := r2) (by rw [hts])
                  have htl : rest.tail.length ≤ rest.length := by
                    cases rest <;> simp
                  dsimp only []
                  rw [ih r2 f2 g2 (by omega) (by omega) (by omega)]
              · rw [if_neg h3, if_neg h3, ih rest f2 g2 (by omega) (by omega) (by omega)]

theorem evalRawTemplateF_eq {s : List Char} {f : Nat} (hf : s.length ≤ f) :
    evalRawTemplateF f s = evalRawTemplate s :=
  evalRawTemplateF_congr f s f s.length hf hf (Nat.le_refl _)

theorem parsePushesF_nil (f : Nat) (acc : List JStr) : parsePushesF f [] acc = none := by
  cases f <;> rfl

theorem parsePushesF_congr : ∀ (n : Nat) (s : List Char) (acc : List JStr) (f g : Nat),
    s.length ≤ n → s.length ≤ f → s.length ≤ g →
    parsePushesF f s acc = parsePushesF g s acc := by
  intro n
  induction n with
  | zero =>
    intro s acc f g hn _ _
    rw [List.length_eq_zero.mp (Nat.le_zero.mp hn), parsePushesF_nil, parsePushesF_nil]
  | succ n ih =>
    intro s acc f g hn hf hg
    cases s with
    | nil => rw [parsePushesF_nil, parsePushesF_nil]
    | cons c rest =>
      simp only [List.length_cons] at hn hf hg
      cases f with
      | zero => omega
      | succ f2 =>
        cases g with
        | zero => omega
        | succ g2 =>
          rw [parsePushesF, parsePushesF]
          by_cases h1 : "importKeys.push(\"".data.isPrefixOf (c :: rest) = true
          · rw [if_pos h1, if_pos h1]
            cases hsl : evalJsStrLit ((c :: rest).drop 17) with
            | none => rfl
            | some kr =>
              obtain ⟨k, r2⟩ := kr
              dsimp only []
              by_cases h2 : r2.headD ' ' = ')'
              · rw [if_pos h2, if_pos h2]
                have hlt : r2.length < ((c :: rest).drop 17).length :=
                  evalJsStrLit_len_lt hsl
                have hd : ((c :: rest).drop 17).length = (c :: rest).length - 17 := by
                  rw [List.length_drop]
                have ht : r2.tail.length = r2.length - 1 := by
                  rw [List.length_tail]
                have hdw : (r2.tail.dropWhile statementSep).length ≤ r2.tail.length :=
                  (List.dropWhile_suffix statementSep).length_le
                simp only [List.length_cons] at hd
                exact ih (r2.tail.dropWhile statementSep) (acc ++ [k]) f2 g2
                  (by omega) (by omega) (by omega)
              · rw [if_neg h2, if_neg h2]
          · rw [if_neg h1, if_neg h1]

theorem parsePushesF_eq {s : List Char} {acc : List JStr} {f : Nat} (hf : s.length ≤ f) :
    parsePushesF f s acc = parsePushesF s.length s acc :=
  parsePushesF_congr f s acc f s.length hf hf (Nat.le_refl _)

theorem blockRAF_congr : ∀ (n : Nat) (s : List Char) (f g : Nat),
    s.length ≤ n → s.length ≤ f → s.length ≤ g →
    blockRAF f s = blockRAF g s := by
  intro n
  induction n with
  | zero =>
    intro s f g hn hf hg
    have hs : s = [] := List.length_eq_zero.mp (Nat.le_zero.mp hn)
    subst hs
    cases f with
    | zero =>
      cases g with
      | zero => rfl
      | succ g2 => rfl
    | succ f2 =>
      cases g with
      | zero => rfl
      | succ g2 => rfl
  | succ n ih =>
    intro s f g hn hf hg
    cases f with
    | zero =>
      -- fuel 0 needs s = [] to match; but s.length ≤ 0 gives s = []
      have hs : s = [] := List.length_eq_zero.mp (Nat.le_zero.mp hf)
      subst hs
      cases g with
      | zero => rfl
      | succ g2 => rfl
    | succ f2 =>
      cases g with
      | zero =>
        have hs : s = [] := List.length_eq_zero.mp (Nat.le_zero.mp hg)
        subst hs
        rfl
      | succ g2 =>
        rw [blockRAF, blockRAF]
        cases hb : splitFirstOcc imports_beginning_marker s with
        | none => rfl
        | some pr1 =>
          obtain ⟨pre, r1⟩ := pr1
          dsimp only []
          cases he : splitFirstOcc imports_ending_marker (r1.dropWhile sepChar) with
          | none => rfl
          | some pr2 =>
            obtain ⟨g3, r3⟩ := pr2
            dsimp only []
            have hb2 := splitFirstOcc_eq_append hb
            have he2 := splitFirstOcc_eq_append he
            have hlb : s.length = pre.length + 29 + r1.length := by
              rw [hb2]
              simp [imports_beginning_marker]
              omega
            have hdw : (r1.dropWhile sepChar).length ≤ r1.length :=
              (List.dropWhile_suffix sepChar).length_le
            have hle : (r1.dropWhile sepChar).length = g3.length + 27 + r3.length := by
              rw [he2]
              simp [imports_ending_marker]
              omega
            rw [ih r3 f2 g2 (by omega) (by omega) (by omega)]

theorem blockRAF_eq {s : List Char} {f : Nat} (hf : s.length ≤ f) :
    blockRAF f s = blockReplaceAll s :=
  blockRAF_congr f s f s.length hf hf (Nat.le_refl _)

/-! ### Behaviour of the import-statement scanner on well-formed text -/

theorem findQuoteClose_at {p rest : List Char} (hp : ∀ c ∈ p, c ≠ '"')
    (hlt : ∀ c ∈ p, lineTerminator c = false) :
    findQuoteClose (p ++ '"' :: ')' :: rest) = some (p, rest) := by
  induction p with
  | nil =>
    rw [List.nil_append, findQuoteClose]
    rw [if_pos]
    · have hd : (')' :: rest).dropWhile jsWhitespace = ')' :: rest := by
        rw [List.dropWhile_cons, if_neg (by decide)]
      rw [hd]
      rfl
    · constructor
      · rfl
      · have hd : (')' :: rest).dropWhile jsWhitespace = ')' :: rest := by
          rw [List.dropWhile_cons, if_neg (by decide)]
        rw [hd]
        rfl
  | cons c p ih =>
    rw [List.cons_append, findQuoteClose]
    rw [if_neg (by
      intro hcon
      exact (hp c (List.mem_cons_self c p)) hcon.1)]
    rw [if_neg (fun hcon =>
      absurd hcon (by simp [hlt c (List.mem_cons_self c p)]))]
    rw [ih (fun d hd => hp d (List.mem_cons_of_mem c hd))
      (fun d hd => hlt d (List.mem_cons_of_mem c hd))]
    rfl

theorem matchImportAt_stmt {p rest : List Char} (hp : ∀ c ∈ p, c ≠ '"')
    (hlt : ∀ c ∈ p, lineTerminator c = false) :
    matchImportAt ("await import(\"".data ++ p ++ "\")".data ++ rest) =
      some (p, rest.dropWhile sepChar) := by
  have e1 : "await import(\"".data =
      'a' :: 'w' :: 'a' :: 'i' :: 't' :: ' ' :: 'i' :: 'm' :: 'p' :: 'o' :: 'r' :: 't' :: '(' :: '"' :: [] := rfl
  rw [e1]
  rw [matchImportAt]
  simp only [List.cons_append, List.nil_append]
  simp +decide only [List.isPrefixOf, List.drop, List.takeWhile, List.dropWhile, jsWhitespace,
    Bool.or_false, Bool.false_or, decide_True, decide_False, Bool.false_and, Bool.and_false,
    Bool.true_and, Bool.and_true, Bool.or_true, Bool.true_or, if_true, if_false,
    List.isEmpty_cons]
  have e2 : p ++ ['"', ')'] ++ rest = p ++ '"' :: ')' :: rest := by
    simp
  rw [e2, findQuoteClose_at hp hlt]

theorem stripImports_nil : stripImports [] = ([], []) := rfl

theorem stripImports_cons_nomatch {c : Char} {s : List Char}
    (h : matchImportAt (c :: s) = none) :
    stripImports (c :: s) = (c :: (stripImports s).1, (stripImports s).2) := by
  rw [stripImports]
  simp only [List.length_cons]
  rw [stripImportsF, h]
  rfl

theorem stripImports_match {s p after : List Char} (hs : s ≠ [])
    (h : matchImportAt s = some (p, after)) :
    stripImports s = ((stripImports after).1, p :: (stripImports after).2) := by
  cases s with
  | nil => exact absurd rfl hs
  | cons c rest =>
    rw [stripImports]
    simp only [List.length_cons]
    rw [stripImportsF, h]
    dsimp only []
    have hlen : after.length ≤ rest.length :=
      Nat.lt_succ_iff.mp (by simpa using matchImportAt_length h)
    rw [stripImportsF_congr rest.length after rest.length after.length hlen hlen (Nat.le_refl _)]
    rfl

theorem matchImportAt_some_await {s p after : List Char}
    (h : matchImportAt s = some (p, after)) : "await".data <+: s := by
  rw [matchImportAt] at h
  by_cases h1 : "await".data.isPrefixOf s = true
  · exact List.isPrefixOf_iff_prefix.mp h1
  · rw [if_neg h1] at h
    exact absurd h (by simp)

theorem no_match_of_no_await {a b : List Char}
    (h : ¬ "await".data <:+: a ++ b.take 4) :
    ∀ i, i < a.length → matchImportAt (a.drop i ++ b) = none := by
  intro i hi
  cases hm : matchImportAt (a.drop i ++ b) with
  | none => rfl
  | some pr =>
    exfalso
    apply h
    have hpre : "await".data <+: (a.drop i ++ b) :=
      @matchImportAt_some_await (a.drop i ++ b) pr.1 pr.2 (by rw [hm])
    by_cases hlen : 5 ≤ (a.drop i).length
    · have h2 : "await".data <+: a.drop i := prefix_split hpre (by simpa using hlen)
      exact (h2.isInfix.trans (List.drop_suffix i a).isInfix).trans
        (List.prefix_append a (b.take 4)).isInfix
    · push_neg at hlen
      have hm1 : 1 ≤ (a.drop i).length := by
        rw [List.length_drop]
        omega
      have ha2 : a.drop i <+: "await".data :=
        List.prefix_of_prefix_length_le (List.prefix_append (a.drop i) b) hpre
          (by simpa using Nat.le_of_lt hlen)
      obtain ⟨restw, hrestw⟩ := ha2
      have hrb : restw <+: b := by
        obtain ⟨t2, ht2⟩ := hpre
        refine ⟨t2, ?_⟩
        have h3 : a.drop i ++ (restw ++ t2) = a.drop i ++ b := by
          rw [← List.append_assoc, hrestw, ht2]
        exact List.append_cancel_left h3
      have hwlen : (a.drop i).length + restw.length = 5 := by
        have h6 := congrArg List.length hrestw
        rw [List.length_append] at h6
        simpa using h6
      have hrt : restw <+: b.take 4 := prefix_take_of_le hrb (by omega)
      obtain ⟨v, hv⟩ := hrt
      refine ⟨a.take i, v, ?_⟩
      rw [← hrestw, ← hv]
      calc a.take i ++ (a.drop i ++ restw) ++ v
          = a.take i ++ (a.drop i ++ (restw ++ v)) := by simp [List.append_assoc]
        _ = a ++ (restw ++ v) := by rw [← List.append_assoc, List.take_append_drop]

theorem stripImports_append_nomatch {a b : List Char}
    (h : ∀ i, i < a.length → matchImportAt (a.drop i ++ b) = none) :
    stripImports (a ++ b) = (a ++ (stripImports b).1, (stripImports b).2) := by
  induction a with
  | nil => simp
  | cons c a ih =>
    have h0 := h 0 (by simp)
    rw [List.drop_zero] at h0
    rw [List.cons_append]
    rw [stripImports_cons_nomatch (by rw [← List.cons_append]; exact h0)]
    have ih2 := ih (fun i hi => by
      have h3 := h (i + 1) (by simp only [List.length_cons]; omega)
      rwa [List.drop_succ_cons] at h3)
    rw [ih2]
    simp

theorem stripImports_no_await {a b : List Char}
    (h : ¬ "await".data <:+: a ++ b.take 4) :
    stripImports (a ++ b) = (a ++ (stripImports b).1, (stripImports b).2) :=
  stripImports_append_nomatch (no_match_of_no_await h)

/-! ### JSON-plain strings and the marked-block strip theorem -/

theorem json_escape_char_plain {c : Char} (h : jsonPlainChar c = true) :
    json_escape_char c = [c] := by
  rw [jsonPlainChar, Bool.and_eq_true, Bool.and_eq_true] at h
  obtain ⟨⟨h1, h2⟩, h3⟩ := h
  rw [decide_eq_true_eq] at h1
  have h2b : c ≠ '"' := by simpa using h2
  have h3b : c ≠ '\\' := by simpa using h3
  rw [json_escape_char, if_neg h2b, if_neg h3b]
  rw [if_neg (by intro hc; subst hc; simp at h1)]
  rw [if_neg (by intro hc; subst hc; simp at h1)]
  rw [if_neg (by intro hc; subst hc; simp at h1)]
  rw [if_neg (by intro hc; subst hc; simp at h1)]
  rw [if_neg (by intro hc; subst hc; simp at h1)]
  rw [if_neg (by intro hlt; omega)]

theorem flatten_escape_plain : ∀ {s : List Char}, jsonPlain s = true →
    (s.map json_escape_char).flatten = s := by
  intro s
  induction s with
  | nil => intro _; rfl
  | cons c rest ih =>
    intro h
    rw [jsonPlain, List.all_cons, Bool.and_eq_true] at h
    rw [List.map_cons, List.flatten_cons, json_escape_char_plain h.1, ih h.2]
    rfl

theorem json_stringify_plain {s : List Char} (h : jsonPlain s = true) :
    json_stringify s = '"' :: s ++ ['"'] := by
  rw [json_stringify, flatten_escape_plain h]

theorem jsonPlain_no_quote {s : List Char} (h : jsonPlain s = true) :
    ∀ c ∈ s, c ≠ '"' := by
  intro c hc
  have := List.all_eq_true.mp h c hc
  rw [jsonPlainChar, Bool.and_eq_true, Bool.and_eq_true] at this
  simpa using this.1.2

theorem noLineTerm_mem {s : List Char} (h : noLineTerm s = true) :
    ∀ c ∈ s, lineTerminator c = false := by
  intro c hc
  have := List.all_eq_true.mp h c hc
  simpa using this

theorem stripImports_pairs : ∀ (pairs : List (JStr × JStr)),
    (∀ kp ∈ pairs, jsonPlain kp.1 = true ∧ ¬ "await".data <:+: kp.1) →
    (∀ kp ∈ pairs, jsonPlain kp.2 = true ∧ noLineTerm kp.2 = true) →
    stripImports ((pairs.map dep_pair_to_js).flatten ++ "\n".data) =
      ((pairs.map dep_pair_residual).flatten ++ "\n".data, pairs.map Prod.snd) := by
  intro pairs
  induction pairs with
  | nil => intro _ _; decide
  | cons kp rest ih =>
    intro hk hp
    obtain ⟨k, p⟩ := kp
    have hk1 := (hk (k, p) (List.mem_cons_self _ _)).1
    have hk2 := (hk (k, p) (List.mem_cons_self _ _)).2
    have hp1 := (hp (k, p) (List.mem_cons_self _ _)).1
    have hp2 := (hp (k, p) (List.mem_cons_self _ _)).2
    have e1 : "\nimportKeys.push(\"".data = "\nimportKeys.push(".data ++ ['"'] := by decide
    have e2 : "\")\n".data = ['"'] ++ ")\n".data := by decide
    have e3 : ")\nawait import(".data = ")\n".data ++ "await import(".data := by decide
    have e4 : "await import(\"".data = "await import(".data ++ ['"'] := by decide
    have e5 : "\")".data = ['"'] ++ ")".data := by decide
    have hshape :
        ((((k, p) :: rest).map dep_pair_to_js).flatten ++ "\n".data) =
        ("\nimportKeys.push(\"".data ++ k ++ "\")\n".data) ++
          (("await import(\"".data ++ p ++ "\")".data) ++
            ((rest.map dep_pair_to_js).flatten ++ "\n".data)) := by
      rw [List.map_cons, List.flatten_cons, dep_pair_to_js]
      rw [json_stringify_plain hk1, json_stringify_plain hp1]
      rw [e1, e2, e4, e5, e3]
      simp [List.append_assoc]
    rw [hshape]
    have hA : ¬ "await".data <:+:
        ("\nimportKeys.push(\"".data ++ k ++ "\")\n".data) ++
          (("await import(\"".data ++ p ++ "\")".data) ++
            ((rest.map dep_pair_to_js).flatten ++ "\n".data)).take 4 := by
      have ht4 : (("await import(\"".data ++ p ++ "\")".data) ++
          ((rest.map dep_pair_to_js).flatten ++ "\n".data)).take 4 = "awai".data := by
        rw [List.append_assoc, List.append_assoc]
        rw [List.take_append_of_le_length (by decide)]
        decide
      rw [ht4]
      have hassoc : ("\nimportKeys.push(\"".data ++ k ++ "\")\n".data) ++ "awai".data =
          ("\nimportKeys.push(\"".data ++ k) ++ ("\")\n".data ++ "awai".data) := by
        simp [List.append_assoc]
      rw [hassoc]
      apply not_infix_append_right (y := '"')
      · apply not_infix_append_left (x := '"')
        · decide
        · exact hk2
        · decide
        · decide
      · decide
      · decide
      · decide
    rw [stripImports_no_await hA]
    have hmatch := @matchImportAt_stmt p ((rest.map dep_pair_to_js).flatten ++ "\n".data)
      (jsonPlain_no_quote hp1) (noLineTerm_mem hp2)
    have hW : ("await import(\"".data ++ p ++ "\")".data) ++
        ((rest.map dep_pair_to_js).flatten ++ "\n".data) =
        "await import(\"".data ++ p ++ "\")".data ++
          ((rest.map dep_pair_to_js).flatten ++ "\n".data) := by
      simp [List.append_assoc]
    rw [hW]
    have hWne : "await import(\"".data ++ p ++ "\")".data ++
        ((rest.map dep_pair_to_js).flatten ++ "\n".data) ≠ [] := by
      simp [e4]
    rw [stripImports_match hWne hmatch]
    have hX : ((rest.map dep_pair_to_js).flatten ++ "\n".data).dropWhile sepChar =
        (rest.map dep_pair_to_js).flatten ++ "\n".data := by
      cases rest with
      | nil => decide
      | cons r0 rs =>
        rw [List.map_cons, List.flatten_cons, dep_pair_to_js]
        have e6 : "\nimportKeys.push(".data = '\n' :: "importKeys.push(".data := by decide
        rw [e6]
        simp only [List.cons_append, List.append_assoc]
        rw [List.dropWhile_cons, if_neg (by decide)]
    rw [hX]
    rw [ih (fun x hx => hk x (List.mem_cons_of_mem _ hx)) (fun x hx => hp x (List.mem_cons_of_mem _ hx))]
    have hresid : dep_pair_residual (k, p) =
        "\nimportKeys.push(\"".data ++ k ++ "\")\n".data := by
      rw [dep_pair_residual, json_stringify_plain hk1]
      rw [e1, e2]
      simp [List.append_assoc]
    rw [List.map_cons, List.flatten_cons, hresid]
    simp [List.append_assoc]

/-! ### Unfolding and occurrence reflection for the raw-string escape -/

theorem escRaw_nil : escape_for_string_raw [] = [] := rfl

theorem escRaw_cons_dollar (rest : List Char) :
    escape_for_string_raw ('$' :: rest) = "$\x7b\"$\"\x7d".data ++ escape_for_string_raw rest := by
  rw [escape_for_string_raw]
  simp only [List.length_cons]
  rw [escRawF, if_pos rfl, escRawF_eq (Nat.le_refl _)]

theorem escRaw_cons_backtick (rest : List Char) :
    escape_for_string_raw (backtick :: rest) =
      "$\x7b\"`\"\x7d".data ++ escape_for_string_raw rest := by
  rw [escape_for_string_raw]
  simp only [List.length_cons]
  rw [escRawF, if_neg (by decide), if_pos rfl, escRawF_eq (Nat.le_refl _)]

theorem escRaw_cons_tag {rest : List Char} (h : closeTagTail.isPrefixOf rest = true) :
    escape_for_string_raw ('<' :: rest) =
      "$\x7b\"</script>\"\x7d".data ++ escape_for_string_raw (rest.drop 8) := by
  rw [escape_for_string_raw]
  simp only [List.length_cons]
  rw [escRawF, if_neg (by decide), if_neg (by decide), if_pos ⟨rfl, h⟩]
  rw [escRawF_eq (by rw [List.length_drop]; omega)]

theorem escRaw_cons_plain {c : Char} (rest : List Char) (h1 : c ≠ '$') (h2 : c ≠ backtick)
    (h3 : ¬(c = '<' ∧ closeTagTail.isPrefixOf rest = true)) :
    escape_for_string_raw (c :: rest) = c :: escape_for_string_raw rest := by
  rw [escape_for_string_raw]
  simp only [List.length_cons]
  rw [escRawF, if_neg h1, if_neg h2, if_neg (by simpa using h3), escRawF_eq (Nat.le_refl _)]

theorem escRaw_isPrefix_reflect {pat : List Char} (hd : '$' ∉ pat) :
    ∀ (n s q : List Char), s.length ≤ n.length → q ≠ [] → (∀ c ∈ q, c ∈ pat) →
      q <+: escape_for_string_raw s → q <+: s := by
  intro n
  induction n with
  | nil =>
    intro s q hs hq _ hpre
    have hs0 : s = [] := List.length_eq_zero.mp (by simpa using hs)
    subst hs0
    rw [escRaw_nil] at hpre
    exact hpre
  | cons c0 n ih =>
    intro s q hs hq hsub hpre
    cases s with
    | nil => rw [escRaw_nil] at hpre; exact hpre
    | cons c rest =>
      simp only [List.length_cons] at hs
      by_cases h1 : c = '$'
      · subst h1
        rw [escRaw_cons_dollar] at hpre
        exfalso
        apply hd
        apply hsub '$'
        have hh := head?_of_isPrefix hpre hq
        cases q with
        | nil => exact absurd rfl hq
        | cons q0 qt =>
          have : q0 = '$' := by
            simpa using hh.symm
          rw [this]
          exact List.mem_cons_self _ _
      · by_cases h2 : c = backtick
        · subst h2
          rw [escRaw_cons_backtick] at hpre
          exfalso
          apply hd
          apply hsub '$'
          have hh := head?_of_isPrefix hpre hq
          cases q with
          | nil => exact absurd rfl hq
          | cons q0 qt =>
            have : q0 = '$' := by
              simpa using hh.symm
            rw [this]
            exact List.mem_cons_self _ _
        · by_cases h3 : c = '<' ∧ closeTagTail.isPrefixOf rest = true
          · obtain ⟨h3a, h3b⟩ := h3
            subst h3a
            rw [escRaw_cons_tag h3b] at hpre
            exfalso
            apply hd
            apply hsub '$'
            have hh := head?_of_isPrefix hpre hq
            cases q with
            | nil => exact absurd rfl hq
            | cons q0 qt =>
              have : q0 = '$' := by
                simpa using hh.symm
              rw [this]
              exact List.mem_cons_self _ _
          · rw [escRaw_cons_plain rest h1 h2 h3] at hpre
            cases q with
            | nil => exact absurd rfl hq
            | cons q0 qt =>
              obtain ⟨t, ht⟩ := hpre
              rw [List.cons_append] at ht
              injection ht with hta htb
              subst hta
              by_cases hqt : qt = []
              · subst hqt
                exact List.cons_prefix_cons.mpr ⟨rfl, List.nil_prefix⟩
              · have hqt2 : qt <+: escape_for_string_raw rest := ⟨t, htb⟩
                have := ih rest qt (by omega) hqt
                  (fun d hdm => hsub d (List.mem_cons_of_mem _ hdm)) hqt2
                exact List.cons_prefix_cons.mpr ⟨rfl, this⟩

theorem escRaw_infix_reflect {pat : List Char} (hne : pat ≠ []) (hd : '$' ∉ pat)
    (hrb : '\x7d' ∉ pat)
    (hi1 : ¬ pat <:+: "$\x7b\"$\"\x7d".data)
    (hi2 : ¬ pat <:+: "$\x7b\"`\"\x7d".data)
    (hi3 : ¬ pat <:+: "$\x7b\"</script>\"\x7d".data) :
    ∀ (n s : List Char), s.length ≤ n.length →
      pat <:+: escape_for_string_raw s → pat <:+: s := by
  intro n
  induction n with
  | nil =>
    intro s hs hinf
    have hs0 : s = [] := List.length_eq_zero.mp (by simpa using hs)
    subst hs0
    rw [escRaw_nil] at hinf
    exact hinf
  | cons c0 n ih =>
    intro s hs hinf
    cases s with
    | nil => rw [escRaw_nil] at hinf; exact hinf
    | cons c rest =>
      simp only [List.length_cons] at hs
      by_cases h1 : c = '$'
      · subst h1
        rw [escRaw_cons_dollar] at hinf
        rcases infix_append_cases hinf with hA | hB | ⟨l₁, l₂, he, hn1, _, hsuf, _⟩
        · exact absurd hA hi1
        · exact List.infix_cons (ih rest (by omega) hB)
        · exfalso
          have hgl : l₁.getLast? = some '\x7d' := (getLast?_of_suffix hsuf hn1) ▸ (by decide)
          exact hrb (he ▸ List.mem_append_left l₂ (List.mem_of_mem_getLast? hgl))
      · by_cases h2 : c = backtick
        · subst h2
          rw [escRaw_cons_backtick] at hinf
          rcases infix_append_cases hinf with hA | hB | ⟨l₁, l₂, he, hn1, _, hsuf, _⟩
          · exact absurd hA hi2
          · exact List.infix_cons (ih rest (by omega) hB)
          · exfalso
            have hgl : l₁.getLast? = some '\x7d' := (getLast?_of_suffix hsuf hn1) ▸ (by decide)
            exact hrb (he ▸ List.mem_append_left l₂ (List.mem_of_mem_getLast? hgl))
        · by_cases h3 : c = '<' ∧ closeTagTail.isPrefixOf rest = true
          · obtain ⟨h3a, h3b⟩ := h3
            subst h3a
            rw [escRaw_cons_tag h3b] at hinf
            rcases infix_append_cases hinf with hA | hB | ⟨l₁, l₂, he, hn1, _, hsuf, _⟩
            · exact absurd hA hi3
            · have hlen8 : (rest.drop 8).length ≤ n.length := by
                rw [List.length_drop]; omega
              have := ih (rest.drop 8) hlen8 hB
              exact List.infix_cons (this.trans (List.drop_suffix 8 rest).isInfix)
            · exfalso
              have hgl : l₁.getLast? = some '\x7d' := (getLast?_of_suffix hsuf hn1) ▸ (by decide)
              exact hrb (he ▸ List.mem_append_left l₂ (List.mem_of_mem_getLast? hgl))
          · rw [escRaw_cons_plain rest h1 h2 h3] at hinf
            rw [List.infix_cons_iff] at hinf
            cases hinf with
            | inr hB => exact List.infix_cons (ih rest (by omega) hB)
            | inl hpre =>
              cases hp : pat with
              | nil => exact absurd hp hne
              | cons p0 pt =>
                subst hp
                obtain ⟨t, ht⟩ := hpre
                rw [List.cons_append] at ht
                injection ht with hta htb
                subst hta
                by_cases hpt : pt = []
                · subst hpt
                  exact (List.cons_prefix_cons.mpr ⟨rfl, List.nil_prefix⟩).isInfix
                · have hpt2 : pt <+: escape_for_string_raw rest := ⟨t, htb⟩
                  have hrefl := escRaw_isPrefix_reflect hd rest rest pt (Nat.le_refl _) hpt
                    (fun d hdm => List.mem_cons_of_mem _ hdm) hpt2
                  exact (List.cons_prefix_cons.mpr ⟨rfl, hrefl⟩).isInfix

/-! ### Evaluation of templates produced by the escape -/

theorem evalJsStrLit_plain : ∀ {m : List Char},
    (∀ c ∈ m, c ≠ '"' ∧ c ≠ '\\' ∧ c ≠ '\n' ∧ c ≠ '\r') →
    ∀ z, evalJsStrLit (m ++ '"' :: z) = some (m, z) := by
  intro m
  induction m with
  | nil =>
    intro _ z
    rw [List.nil_append, evalJsStrLit.eq_def]
    dsimp only []
    rw [if_pos rfl]
  | cons c rest ih =>
    intro h z
    obtain ⟨h1, h2, h3, h4⟩ := h c (List.mem_cons_self _ _)
    rw [List.cons_append, evalJsStrLit.eq_def]
    dsimp only []
    rw [if_neg h1, if_neg (by
      intro hor
      cases hor with
      | inl hh => exact h3 hh
      | inr hh => exact h4 hh), if_neg h2]
    rw [ih (fun d hd => h d (List.mem_cons_of_mem _ hd)) z]
    rfl

theorem jsonPlain_char_facts {s : List Char} (h : jsonPlain s = true) :
    ∀ c ∈ s, c ≠ '"' ∧ c ≠ '\\' ∧ c ≠ '\n' ∧ c ≠ '\r' := by
  intro c hc
  have hx := List.all_eq_true.mp h c hc
  rw [jsonPlainChar, Bool.and_eq_true, Bool.and_eq_true] at hx
  obtain ⟨⟨h1, h2⟩, h3⟩ := hx
  rw [decide_eq_true_eq] at h1
  refine ⟨by simpa using h2, by simpa using h3, ?_, ?_⟩
  · intro hn; subst hn; simp at h1
  · intro hr; subst hr; simp at h1

theorem evalRT_backtick (tail : List Char) :
    evalRawTemplate (backtick :: tail) = some ([], tail) := by
  rw [evalRawTemplate]
  simp only [List.length_cons]
  rw [evalRawTemplateF.eq_def]
  dsimp only []
  rw [if_pos rfl]

theorem evalRT_backslash (d : Char) (rest : List Char) (hd : d ≠ '\r') :
    evalRawTemplate ('\\' :: d :: rest) =
      (evalRawTemplate rest).map (fun vr => ('\\' :: d :: vr.1, vr.2)) := by
  rw [evalRawTemplate]
  simp only [List.length_cons]
  rw [evalRawTemplateF.eq_def]
  dsimp only []
  rw [if_neg (by decide), if_neg (by decide), if_pos rfl]
  rw [if_neg hd]
  rw [evalRawTemplateF_congr (rest.length + 1) rest (rest.length + 1) rest.length
    (by omega) (by omega) (Nat.le_refl _)]
  rfl

theorem evalRT_plain (c : Char) (rest : List Char) (h1 : c ≠ backtick) (h2 : c ≠ '\\')
    (h3 : ¬(c = '$' ∧ rest.headD ' ' = '\x7b')) (h4 : c ≠ '\r') :
    evalRawTemplate (c :: rest) = (evalRawTemplate rest).map (fun vr => (c :: vr.1, vr.2)) := by
  rw [evalRawTemplate]
  simp only [List.length_cons]
  rw [evalRawTemplateF.eq_def]
  dsimp only []
  rw [if_neg h1, if_neg h4, if_neg h2, if_neg h3]
  rfl

theorem evalRT_dollarIns (z : List Char) :
    evalRawTemplate ("$\x7b\"$\"\x7d".data ++ z) =
      (evalRawTemplate z).map (fun vr => ('$' :: vr.1, vr.2)) := by
  have e : "$\x7b\"$\"\x7d".data ++ z = '$' :: '\x7b' :: '"' :: '$' :: '"' :: '\x7d' :: z := rfl
  rw [e, evalRawTemplate]
  simp only [List.length_cons]
  rw [evalRawTemplateF.eq_def]
  dsimp only []
  rw [if_neg (by decide), if_neg (by decide), if_neg (by decide),
    if_pos (by constructor <;> rfl)]
  have hsub : evalTemplateSub ('"' :: '$' :: '"' :: '\x7d' :: z) = some (['$'], z) := by
    rw [evalTemplateSub]
    have hlit : evalJsStrLit ('$' :: '"' :: '\x7d' :: z) = some (['$'], '\x7d' :: z) := by
      have := evalJsStrLit_plain (m := ['$']) (by decide) ('\x7d' :: z)
      simpa using this
    rw [hlit]
    rfl
  simp only [List.tail_cons]
  rw [hsub]
  dsimp only []
  rw [evalRawTemplateF_congr (z.length + 5) z (z.length + 5) z.length
    (by omega) (by omega) (Nat.le_refl _)]
  rfl

theorem evalRT_backtickIns (z : List Char) :
    evalRawTemplate ("$\x7b\"`\"\x7d".data ++ z) =
      (evalRawTemplate z).map (fun vr => (backtick :: vr.1, vr.2)) := by
  have e : "$\x7b\"`\"\x7d".data ++ z = '$' :: '\x7b' :: '"' :: backtick :: '"' :: '\x7d' :: z := rfl
  rw [e, evalRawTemplate]
  simp only [List.length_cons]
  rw [evalRawTemplateF.eq_def]
  dsimp only []
  rw [if_neg (by decide), if_neg (by decide), if_neg (by decide),
    if_pos (by constructor <;> rfl)]
  have hsub : evalTemplateSub ('"' :: backtick :: '"' :: '\x7d' :: z) = some ([backtick], z) := by
    rw [evalTemplateSub]
    have hlit : evalJsStrLit (backtick :: '"' :: '\x7d' :: z) = some ([backtick], '\x7d' :: z) := by
      have := evalJsStrLit_plain (m := [backtick]) (by decide) ('\x7d' :: z)
      simpa using this
    rw [hlit]
    rfl
  simp only [List.tail_cons]
  rw [hsub]
  dsimp only []
  rw [evalRawTemplateF_congr (z.length + 5) z (z.length + 5) z.length
    (by omega) (by omega) (Nat.le_refl _)]
  rfl

theorem evalRT_tagIns (z : List Char) :
    evalRawTemplate ("$\x7b\"</script>\"\x7d".data ++ z) =
      (evalRawTemplate z).map (fun vr => ("</script>".data ++ vr.1, vr.2)) := by
  have e : "$\x7b\"</script>\"\x7d".data ++ z =
      '$' :: '\x7b' :: '"' :: ("</script>".data ++ ('"' :: '\x7d' :: z)) := rfl
  rw [e, evalRawTemplate]
  simp only [List.length_cons]
  rw [evalRawTemplateF.eq_def]
  dsimp only []
  rw [if_neg (by decide), if_neg (by decide), if_neg (by decide),
    if_pos (by constructor <;> rfl)]
  have hsub : evalTemplateSub ('"' :: ("</script>".data ++ ('"' :: '\x7d' :: z))) =
      some ("</script>".data, z) := by
    rw [evalTemplateSub]
    have hlit : evalJsStrLit ("</script>".data ++ '"' :: ('\x7d' :: z)) =
        some ("</script>".data, '\x7d' :: z) :=
      evalJsStrLit_plain (m := "</script>".data) (by decide) ('\x7d' :: z)
    rw [show "</script>".data ++ ('"' :: '\x7d' :: z) = "</script>".data ++ '"' :: ('\x7d' :: z)
      from rfl]
    rw [hlit]
    rfl
  simp only [List.tail_cons]
  rw [hsub]
  dsimp only []
  have hfz : evalRawTemplateF (("</script>".data ++ '"' :: '\x7d' :: z).length + 2) z =
      evalRawTemplate z :=
    evalRawTemplateF_congr (("</script>".data ++ '"' :: '\x7d' :: z).length + 2) z
      (("</script>".data ++ '"' :: '\x7d' :: z).length + 2) z.length
      (by simp; omega) (by simp; omega) (Nat.le_refl _)
  rw [hfz]

theorem rawSafe_cons_plain {c : Char} {rest : List Char} (h0 : c ≠ '\r')
    (h3 : c ≠ '\\') :
    rawSafe (c :: rest) = rawSafe rest := by
  rw [rawSafe.eq_def]
  dsimp only []
  rw [if_neg h0, if_neg h3]

theorem rawSafe_tag_tail (x : List Char) :
    rawSafe ("/script>".data ++ x) = rawSafe x := by
  have e : "/script>".data ++ x = '/' :: 's' :: 'c' :: 'r' :: 'i' :: 'p' :: 't' :: '>' :: x := rfl
  rw [e]
  rw [rawSafe_cons_plain (by decide) (by decide), rawSafe_cons_plain (by decide) (by decide),
    rawSafe_cons_plain (by decide) (by decide), rawSafe_cons_plain (by decide) (by decide),
    rawSafe_cons_plain (by decide) (by decide), rawSafe_cons_plain (by decide) (by decide),
    rawSafe_cons_plain (by decide) (by decide), rawSafe_cons_plain (by decide) (by decide)]

theorem evalRawTemplate_escRaw : ∀ (n content tail : List Char),
    content.length ≤ n.length → rawSafe content = true →
    evalRawTemplate (escape_for_string_raw content ++ backtick :: tail) =
      some (content, tail) := by
  intro n
  induction n with
  | nil =>
    intro content tail hn _
    have hc0 : content = [] := List.length_eq_zero.mp (by simpa using hn)
    subst hc0
    rw [escRaw_nil, List.nil_append, evalRT_backtick]
  | cons c0 n ih =>
    intro content tail hn h
    cases content with
    | nil => rw [escRaw_nil, List.nil_append, evalRT_backtick]
    | cons c rest =>
      simp only [List.length_cons] at hn
      by_cases h1 : c = '$'
      · subst h1
        rw [escRaw_cons_dollar, List.append_assoc, evalRT_dollarIns]
        rw [ih rest tail (by omega) (by rwa [rawSafe_cons_plain (by decide) (by decide)] at h)]
        rfl
      · by_cases h2 : c = backtick
        · subst h2
          rw [escRaw_cons_backtick, List.append_assoc, evalRT_backtickIns]
          rw [ih rest tail (by omega) (by rwa [rawSafe_cons_plain (by decide) (by decide)] at h)]
          rfl
        · by_cases h3 : c = '\\'
          · subst h3
            cases rest with
            | nil =>
              exfalso
              rw [rawSafe.eq_def] at h
              dsimp only [] at h
              rw [if_neg (by decide), if_pos rfl] at h
              exact absurd h (by decide)
            | cons d r2 =>
              rw [rawSafe.eq_def] at h
              dsimp only [] at h
              rw [if_neg (by decide), if_pos rfl] at h
              rw [Bool.and_eq_true] at h
              obtain ⟨hd, hr2⟩ := h
              simp only [Bool.not_eq_eq_eq_not, Bool.not_true, Bool.or_eq_false_iff,
                Bool.and_eq_false_iff] at hd
              obtain ⟨⟨⟨hd1, hd2⟩, hdr⟩, hd3⟩ := hd
              have hd1b : d ≠ '$' := by simpa using hd1
              have hd2b : d ≠ backtick := by simpa using hd2
              have hdrb : d ≠ '\r' := by simpa using hdr
              have hd3b : ¬(d = '<' ∧ closeTagTail.isPrefixOf r2 = true) := by
                intro hcon
                cases hd3 with
                | inl hh => exact absurd hcon.1 (by simpa using hh)
                | inr hh => rw [hcon.2] at hh; exact absurd hh (by decide)
              rw [escRaw_cons_plain (d :: r2) (by decide) (by decide) (by
                intro hcon
                exact absurd hcon.1 (by decide))]
              rw [escRaw_cons_plain r2 hd1b hd2b hd3b]
              rw [List.cons_append, List.cons_append, evalRT_backslash d _ hdrb]
              simp only [List.length_cons] at hn
              rw [ih r2 tail (by omega) hr2]
              rfl
          · by_cases h4 : c = '<' ∧ closeTagTail.isPrefixOf rest = true
            · obtain ⟨h4a, h4b⟩ := h4
              subst h4a
              rw [escRaw_cons_tag h4b, List.append_assoc, evalRT_tagIns]
              have hdecomp : closeTagTail ++ rest.drop 8 = rest := by
                have htk := List.isPrefixOf_iff_prefix.mp h4b
                rw [List.prefix_iff_eq_take] at htk
                have hlen8 : (closeTagTail : List Char).length = 8 := rfl
                rw [hlen8] at htk
                conv_rhs => rw [← List.take_append_drop 8 rest]
                rw [← htk]
              have hdrop8 : (rest.drop 8).length ≤ n.length := by
                rw [List.length_drop]; omega
              have hsafe : rawSafe (rest.drop 8) = true := by
                have h5 : rawSafe rest = true := by
                  rwa [rawSafe_cons_plain (by decide) (by decide)] at h
                rw [← hdecomp] at h5
                rw [show (closeTagTail : List Char) = "/script>".data from rfl] at h5
                rwa [rawSafe_tag_tail] at h5
              rw [ih (rest.drop 8) tail hdrop8 hsafe]
              have hcontent : "</script>".data ++ rest.drop 8 = '<' :: rest := by
                rw [show ("</script>".data : List Char) = '<' :: closeTagTail from rfl]
                rw [List.cons_append, hdecomp]
              simp only [Option.map_some']
              rw [hcontent]
            · have h4b : ¬(c = '<' ∧ closeTagTail.isPrefixOf rest = true) := h4
              have hcr : c ≠ '\r' := by
                intro hcon
                subst hcon
                rw [rawSafe.eq_def] at h
                dsimp only [] at h
                rw [if_pos rfl] at h
                exact Bool.noConfusion h
              rw [escRaw_cons_plain rest h1 h2 h4b]
              rw [List.cons_append, evalRT_plain c _ h2 h3 (by
                intro hcon
                exact h1 hcon.1) hcr]
              rw [ih rest tail (by omega) (by rwa [rawSafe_cons_plain hcr h3] at h)]
              rfl

/-! ### Evaluation of the residual module -/

theorem isPrefixOf_of_append {pat lit : List Char} (h : pat <+: lit) (z : List Char) :
    pat.isPrefixOf (lit ++ z) = true :=
  List.isPrefixOf_iff_prefix.mpr (h.trans (List.prefix_append lit z))

theorem isPrefixOf_false_of_head_ne {pat s : List Char} {a b : Char}
    (hp : pat.head? = some a) (hs : s.head? = some b) (hab : a ≠ b) :
    pat.isPrefixOf s = false := by
  by_cases h : pat.isPrefixOf s = true
  · exfalso
    have hne : pat ≠ [] := by
      intro he
      rw [he] at hp
      exact Option.noConfusion hp
    have := head?_of_isPrefix (List.isPrefixOf_iff_prefix.mp h) hne
    rw [hp, hs] at this
    exact hab (Option.some.inj this).symm
  · exact Bool.eq_false_iff.mpr h

theorem parsePushes_push {k r : List Char} {acc : List JStr} (hk : jsonPlain k = true) :
    parsePushes ("importKeys.push(\"".data ++ k ++ '"' :: ')' :: r) acc =
      parsePushes (r.dropWhile statementSep) (acc ++ [k]) := by
  rw [parsePushes]
  have hlen : ("importKeys.push(\"".data ++ k ++ '"' :: ')' :: r).length =
      k.length + r.length + 19 := by
    simp [List.length_append]
    omega
  rw [hlen]
  have hne : k.length + r.length + 19 = (k.length + r.length + 18) + 1 := by omega
  rw [hne, parsePushesF]
  rw [if_pos (by
    rw [List.append_assoc]
    exact isPrefixOf_of_append (List.prefix_refl _) _)]
  have hdrop : (("importKeys.push(\"".data ++ (k ++ '"' :: ')' :: r)).drop 17) =
      k ++ '"' :: ')' :: r := by
    rw [show (17 : Nat) = ("importKeys.push(\"".data : List Char).length from rfl]
    rw [List.drop_left]
  rw [List.append_assoc, hdrop]
  have hlit : evalJsStrLit (k ++ '"' :: ')' :: r) = some (k, ')' :: r) :=
    evalJsStrLit_plain (jsonPlain_char_facts hk) (')' :: r)
  rw [hlit]
  dsimp only []
  simp only [List.headD_cons, List.tail_cons]
  simp only [if_true]
  exact parsePushesF_congr (k.length + r.length + 18) (r.dropWhile statementSep) (acc ++ [k])
    (k.length + r.length + 18) (r.dropWhile statementSep).length
    (by
      have := (List.dropWhile_suffix statementSep (l := r)).length_le
      omega)
    (by
      have := (List.dropWhile_suffix statementSep (l := r)).length_le
      omega)
    (Nat.le_refl _)

theorem contentExportJs_eval {content : List Char} (h : rawSafe content = true) :
    evalContentExport (contentExportJs content) = some content := by
  rw [contentExportJs, evalContentExport]
  rw [if_pos (by
    rw [List.append_assoc]
    exact isPrefixOf_of_append (List.prefix_refl _) _)]
  have hdrop : (("export const content = String.raw`".data ++
      (escape_for_string_raw content ++ "`\n".data)).drop 34) =
      escape_for_string_raw content ++ "`\n".data := by
    rw [show (34 : Nat) = ("export const content = String.raw`".data : List Char).length
      from rfl]
    rw [List.drop_left]
  rw [List.append_assoc, hdrop]
  have he : escape_for_string_raw content ++ "`\n".data =
      escape_for_string_raw content ++ backtick :: "\n".data := rfl
  rw [he, evalRawTemplate_escRaw content content "\n".data (Nat.le_refl _) h]
  dsimp only []
  rw [if_pos (by decide)]

theorem parsePushes_content {content : List Char} {acc : List JStr}
    (h : rawSafe content = true) :
    parsePushes (contentExportJs content) acc = some (acc, content) := by
  rw [parsePushes]
  cases hlen : (contentExportJs content).length with
  | zero =>
    exfalso
    rw [contentExportJs] at hlen
    simp [List.length_append] at hlen
  | succ m =>
    rw [parsePushesF]
    rw [if_neg (by
      rw [contentExportJs, List.append_assoc]
      rw [isPrefixOf_false_of_head_ne
        (show ("importKeys.push(\"".data : List Char).head? = some 'i' from rfl)
        (show (("export const content = String.raw`".data : List Char) ++
          (escape_for_string_raw content ++ "`\n".data)).head? = some 'e' from rfl)
        (by decide)]
      simp)]
    rw [contentExportJs_eval h]

/-! ### The end marker does not occur in the statement block -/

theorem not_E_infix_seg {k p : List Char} (hkP : jsonPlain k = true)
    (hkE : ¬ imports_ending_marker <:+: k) (hpP : jsonPlain p = true)
    (hpE : ¬ imports_ending_marker <:+: p) :
    ¬ imports_ending_marker <:+: dep_pair_to_js (k, p) := by
  have hshape : dep_pair_to_js (k, p) =
      ("\nimportKeys.push(\"".data ++ k) ++
        ("\")\nawait import(\"".data ++ (p ++ "\")".data)) := by
    rw [dep_pair_to_js]
    dsimp only []
    rw [json_stringify_plain hkP, json_stringify_plain hpP]
    simp [List.append_assoc, List.cons_append]
  rw [hshape]
  apply not_infix_append_right (y := '"')
  · apply not_infix_append_left (x := '"')
    · decide
    · exact hkE
    · decide
    · decide
  · apply not_infix_append_left (x := '"')
    · decide
    · apply not_infix_append_right (y := '"')
      · exact hpE
      · decide
      · rfl
      · decide
    · decide
    · decide
  · rfl
  · decide

theorem deps_flatten_head {pairs : List (JStr × JStr)} (h : pairs ≠ []) :
    ((pairs.map dep_pair_to_js).flatten).head? = some '\n' := by
  cases pairs with
  | nil => exact absurd rfl h
  | cons kp rest =>
    rw [List.map_cons, List.flatten_cons, List.head?_append]
    rw [dep_pair_to_js]
    rfl

theorem not_E_infix_deps : ∀ (pairs : List (JStr × JStr)),
    (∀ kp ∈ pairs, jsonPlain kp.1 = true ∧ ¬ imports_ending_marker <:+: kp.1) →
    (∀ kp ∈ pairs, jsonPlain kp.2 = true ∧ ¬ imports_ending_marker <:+: kp.2) →
    ¬ imports_ending_marker <:+: (pairs.map dep_pair_to_js).flatten := by
  intro pairs
  induction pairs with
  | nil =>
    intro _ _
    intro hc
    have := List.eq_nil_of_infix_nil hc
    exact absurd this (by decide)
  | cons kp rest ih =>
    intro hk hp
    obtain ⟨k, p⟩ := kp
    rw [List.map_cons, List.flatten_cons]
    have hseg := not_E_infix_seg (hk (k, p) (List.mem_cons_self _ _)).1
      (hk (k, p) (List.mem_cons_self _ _)).2 (hp (k, p) (List.mem_cons_self _ _)).1
      (hp (k, p) (List.mem_cons_self _ _)).2
    cases rest with
    | nil => simpa using hseg
    | cons r0 rs =>
      apply not_infix_append_right (y := '\n')
      · exact hseg
      · exact ih (fun x hx => hk x (List.mem_cons_of_mem _ hx))
          (fun x hx => hp x (List.mem_cons_of_mem _ hx))
      · exact deps_flatten_head (by simp)
      · decide

/-! ### Zip projections -/

theorem zip_map_fst_eq {α β γ : Type} (g : α → γ) :
    ∀ (l1 : List α) (l2 : List β), l1.length = l2.length →
    (l1.zip l2).map (fun kp => g kp.1) = l1.map g := by
  intro l1
  induction l1 with
  | nil => intro l2 _; rfl
  | cons a t ih =>
    intro l2 hl
    cases l2 with
    | nil => simp at hl
    | cons b u =>
      simp only [List.zip_cons_cons, List.map_cons]
      rw [ih u (by simpa using hl)]

theorem zip_map_snd_eq {α β : Type} :
    ∀ (l1 : List α) (l2 : List β), l1.length = l2.length →
    (l1.zip l2).map Prod.snd = l2 := by
  intro l1
  induction l1 with
  | nil =>
    intro l2 hl
    rw [List.length_nil] at hl
    rw [(List.length_eq_zero.mp hl.symm)]
    rfl
  | cons a t ih =>
    intro l2 hl
    cases l2 with
    | nil => simp at hl
    | cons b u =>
      simp only [List.zip_cons_cons, List.map_cons]
      rw [ih u (by simpa using hl)]

/-! ### Evaluation of the full residual module -/

theorem parsePushes_flatten : ∀ (keys : List JStr) (acc : List JStr) (W content : List Char),
    (∀ k ∈ keys, jsonPlain k = true) → rawSafe content = true →
    W.dropWhile statementSep = contentExportJs content →
    parsePushes (((keys.map key_push_residual).flatten ++ W).dropWhile statementSep) acc =
      some (acc ++ keys, content) := by
  intro keys
  induction keys with
  | nil =>
    intro acc W content _ hc hW
    rw [List.map_nil, List.flatten_nil, List.nil_append, hW]
    rw [parsePushes_content hc]
    rw [List.append_nil]
  | cons k rest ih =>
    intro acc W content hk hc hW
    have hk1 : jsonPlain k = true := hk k (List.mem_cons_self _ _)
    have hshape : ((((k :: rest).map key_push_residual).flatten ++ W) : List Char) =
        '\n' :: ("importKeys.push(\"".data ++ k ++ '"' :: ')' ::
          ('\n' :: ((rest.map key_push_residual).flatten ++ W))) := by
      rw [List.map_cons, List.flatten_cons, key_push_residual, json_stringify_plain hk1]
      simp [List.append_assoc, List.cons_append]
    rw [hshape]
    rw [List.dropWhile_cons, if_pos (by decide)]
    have hstop : ("importKeys.push(\"".data ++ k ++ '"' :: ')' ::
        ('\n' :: ((rest.map key_push_residual).flatten ++ W))) = 'i' ::
        ("mportKeys.push(\"".data ++ k ++ '"' :: ')' ::
          ('\n' :: ((rest.map key_push_residual).flatten ++ W))) := rfl
    rw [hstop, List.dropWhile_cons, if_neg (by decide), ← hstop]
    rw [parsePushes_push hk1]
    rw [List.dropWhile_cons, if_pos (by decide)]
    rw [ih (acc ++ [k]) W content (fun x hx => hk x (List.mem_cons_of_mem _ hx)) hc hW]
    simp

theorem evalModule_residual {keys : List JStr} {content : List Char}
    (hk : ∀ k ∈ keys, jsonPlain k = true) (hc : rawSafe content = true) :
    evalModule ("\nexport const importKeys = []\n".data ++
        ("\n".data ++ (keys.map key_push_residual).flatten ++ "\n".data) ++
        ("\n".data ++ contentExportJs content)) =
      some (keys, content) := by
  have hW : ("\n".data ++ ("\n".data ++ contentExportJs content)).dropWhile statementSep =
      contentExportJs content := by
    rw [show ("\n".data ++ ("\n".data ++ contentExportJs content) : List Char) =
      '\n' :: ('\n' :: contentExportJs content) from rfl]
    rw [List.dropWhile_cons, if_pos (by decide), List.dropWhile_cons, if_pos (by decide)]
    rw [contentExportJs]
    rw [show ("export const content = String.raw`".data ++ escape_for_string_raw content ++
      "`\n".data : List Char) = 'e' :: ("xport const content = String.raw`".data ++
      escape_for_string_raw content ++ "`\n".data) from rfl]
    rw [List.dropWhile_cons, if_neg (by decide)]
  have hs : ("\nexport const importKeys = []\n".data ++
      ("\n".data ++ (keys.map key_push_residual).flatten ++ "\n".data) ++
      ("\n".data ++ contentExportJs content) : List Char) =
      '\n' :: ("export const importKeys = []".data ++
        ('\n' :: ('\n' :: ((keys.map key_push_residual).flatten ++
          ("\n".data ++ ("\n".data ++ contentExportJs content)))))) := by
    rw [show ("\nexport const importKeys = []\n".data : List Char) =
      '\n' :: ("export const importKeys = []".data ++ ['\n']) from rfl]
    simp [List.append_assoc]
  have hs1 : (("\nexport const importKeys = []\n".data ++
      ("\n".data ++ (keys.map key_push_residual).flatten ++ "\n".data) ++
      ("\n".data ++ contentExportJs content) : List Char)).dropWhile statementSep =
      "export const importKeys = []".data ++
        ('\n' :: ('\n' :: ((keys.map key_push_residual).flatten ++
          ("\n".data ++ ("\n".data ++ contentExportJs content))))) := by
    rw [hs]
    rw [List.dropWhile_cons, if_pos (by decide)]
    rw [show ("export const importKeys = []".data ++
        ('\n' :: ('\n' :: ((keys.map key_push_residual).flatten ++
          ("\n".data ++ ("\n".data ++ contentExportJs content))))) : List Char) =
      'e' :: ("xport const importKeys = []".data ++
        ('\n' :: ('\n' :: ((keys.map key_push_residual).flatten ++
          ("\n".data ++ ("\n".data ++ contentExportJs content)))))) from rfl]
    rw [List.dropWhile_cons, if_neg (by decide)]
  rw [evalModule, hs1]
  rw [if_pos (isPrefixOf_of_append (List.prefix_refl _) _)]
  rw [show (28 : Nat) = ("export const importKeys = []".data : List Char).length from rfl]
  rw [List.drop_left]
  rw [List.dropWhile_cons, if_pos (by decide), List.dropWhile_cons, if_pos (by decide)]
  have hT : (((keys.map key_push_residual).flatten ++
      ("\n".data ++ ("\n".data ++ contentExportJs content))).dropWhile statementSep).length ≤
      ("\nexport const importKeys = []\n".data ++
        ("\n".data ++ (keys.map key_push_residual).flatten ++ "\n".data) ++
        ("\n".data ++ contentExportJs content) : List Char).length := by
    have h1 := (List.dropWhile_suffix statementSep
      (l := (keys.map key_push_residual).flatten ++
        ("\n".data ++ ("\n".data ++ contentExportJs content)))).length_le
    simp only [List.length_append] at h1 ⊢
    omega
  rw [parsePushesF_congr (("\nexport const importKeys = []\n".data ++
      ("\n".data ++ (keys.map key_push_residual).flatten ++ "\n".data) ++
      ("\n".data ++ contentExportJs content) : List Char)).length
    (((keys.map key_push_residual).flatten ++
      ("\n".data ++ ("\n".data ++ contentExportJs content))).dropWhile statementSep) []
    (("\nexport const importKeys = []\n".data ++
      ("\n".data ++ (keys.map key_push_residual).flatten ++ "\n".data) ++
      ("\n".data ++ contentExportJs content) : List Char)).length
    (((keys.map key_push_residual).flatten ++
      ("\n".data ++ ("\n".data ++ contentExportJs content))).dropWhile statementSep).length
    hT hT (Nat.le_refl _)]
  show parsePushes (((keys.map key_push_residual).flatten ++
      ("\n".data ++ ("\n".data ++ contentExportJs content))).dropWhile statementSep) [] =
    some (keys, content)
  rw [parsePushes_flatten keys [] ("\n".data ++ ("\n".data ++ contentExportJs content))
    content hk hc hW]
  rw [List.nil_append]

/-! ### Block replacement on the wrapped script -/

theorem blockRAF_no_marker {s : List Char} (f : Nat)
    (h : splitFirstOcc imports_beginning_marker s = none) : blockRAF f s = (s, []) := by
  cases f with
  | zero => rfl
  | succ f2 =>
    rw [blockRAF, h]

theorem blockReplaceAll_parseToJs {keys paths : List JStr} {content : List Char}
    (hlen : keys.length = paths.length)
    (hkeys : ∀ k ∈ keys, jsonPlain k = true ∧ ¬ "await".data <:+: k ∧
      ¬ imports_ending_marker <:+: k)
    (hpaths : ∀ p ∈ paths, jsonPlain p = true ∧ noLineTerm p = true ∧
      ¬ imports_ending_marker <:+: p)
    (hcontent : ¬ imports_beginning_marker <:+: content) :
    blockReplaceAll ("\nexport const importKeys = []\n".data ++
        imports_beginning_marker ++ "\n".data ++ deps_list_to_js keys paths ++ "\n".data ++
        imports_ending_marker ++ "\n".data ++ contentExportJs content) =
      ("\nexport const importKeys = []\n".data ++
        ("\n".data ++ (keys.map key_push_residual).flatten ++ "\n".data) ++
        ("\n".data ++ contentExportJs content), paths) := by
  have hkz : ∀ kp ∈ keys.zip paths, jsonPlain kp.1 = true ∧ ¬ "await".data <:+: kp.1 := by
    intro kp hkp
    have := hkeys kp.1 (List.of_mem_zip hkp).1
    exact ⟨this.1, this.2.1⟩
  have hkzE : ∀ kp ∈ keys.zip paths, jsonPlain kp.1 = true ∧
      ¬ imports_ending_marker <:+: kp.1 := by
    intro kp hkp
    have := hkeys kp.1 (List.of_mem_zip hkp).1
    exact ⟨this.1, this.2.2⟩
  have hpz : ∀ kp ∈ keys.zip paths, jsonPlain kp.2 = true ∧ noLineTerm kp.2 = true := by
    intro kp hkp
    have := hpaths kp.2 (List.of_mem_zip hkp).2
    exact ⟨this.1, this.2.1⟩
  have hpzE : ∀ kp ∈ keys.zip paths, jsonPlain kp.2 = true ∧
      ¬ imports_ending_marker <:+: kp.2 := by
    intro kp hkp
    have := hpaths kp.2 (List.of_mem_zip hkp).2
    exact ⟨this.1, this.2.2⟩
  have hnoE : ¬ imports_ending_marker <:+:
      ("\n".data ++ deps_list_to_js keys paths ++ "\n".data) ++
        imports_ending_marker.dropLast := by
    have hsh : ("\n".data ++ deps_list_to_js keys paths ++ "\n".data) ++
        imports_ending_marker.dropLast =
        ("\n".data ++ deps_list_to_js keys paths) ++
          ("\n".data ++ imports_ending_marker.dropLast) := by
      simp [List.append_assoc]
    rw [hsh]
    apply not_infix_append_right (y := '\n')
    · apply not_infix_append_left (x := '\n')
      · decide
      · exact not_E_infix_deps (keys.zip paths) hkzE hpzE
      · decide
      · decide
    · decide
    · rfl
    · decide
  have hnoB3 : ¬ imports_beginning_marker <:+: "\n".data ++ contentExportJs content := by
    rw [contentExportJs]
    have hsh : ("\n".data ++ ("export const content = String.raw`".data ++
        escape_for_string_raw content ++ "`\n".data) : List Char) =
        ("\n".data ++ "export const content = String.raw`".data) ++
          (escape_for_string_raw content ++ "`\n".data) := by
      simp [List.append_assoc]
    rw [hsh]
    apply not_infix_append_left (x := '`')
    · decide
    · apply not_infix_append_right (y := '`')
      · intro hcon
        exact hcontent (escRaw_infix_reflect (by decide) (by decide) (by decide)
          (by decide) (by decide) (by decide) content content (Nat.le_refl _) hcon)
      · decide
      · rfl
      · decide
    · decide
    · decide
  have hawait : ¬ "await".data <:+:
      "\n".data ++ (deps_list_to_js keys paths ++ "\n".data).take 4 := by
    cases hz : keys.zip paths with
    | nil =>
      rw [deps_list_to_js, hz]
      decide
    | cons kp rest =>
      rw [deps_list_to_js, hz, List.map_cons, List.flatten_cons]
      have h4 : ((dep_pair_to_js kp ++ (rest.map dep_pair_to_js).flatten) ++ "\n".data).take 4 =
          "\nimp".data := by
        rw [List.append_assoc]
        rw [List.take_append_of_le_length (by
          rw [dep_pair_to_js]
          simp [List.length_append])]
        rw [dep_pair_to_js]
        dsimp only []
        rw [show ("\nimportKeys.push(".data ++ json_stringify kp.1 ++
          ")\nawait import(".data ++ json_stringify kp.2 ++ ")".data : List Char) =
          "\nimportKeys.push(".data ++ (json_stringify kp.1 ++
          (")\nawait import(".data ++ (json_stringify kp.2 ++ ")".data))) by
            simp [List.append_assoc]]
        rw [List.take_append_of_le_length (by decide)]
        decide
      rw [h4]
      decide
  have hstrip : stripImports ("\n".data ++ deps_list_to_js keys paths ++ "\n".data) =
      ("\n".data ++ (keys.map key_push_residual).flatten ++ "\n".data, paths) := by
    rw [List.append_assoc]
    rw [stripImports_no_await hawait]
    rw [deps_list_to_js]
    rw [stripImports_pairs (keys.zip paths) hkz hpz]
    have hmapr : (keys.zip paths).map dep_pair_residual = keys.map key_push_residual := by
      exact zip_map_fst_eq key_push_residual keys paths hlen
    rw [hmapr, zip_map_snd_eq keys paths hlen]
    rw [List.append_assoc]
  obtain ⟨m, hm⟩ : ∃ m, ("\nexport const importKeys = []\n".data ++
      imports_beginning_marker ++ "\n".data ++ deps_list_to_js keys paths ++ "\n".data ++
      imports_ending_marker ++ "\n".data ++ contentExportJs content : List Char).length =
      m + 1 := by
    refine ⟨("\nexport const importKeys = []\n".data ++
      imports_beginning_marker ++ "\n".data ++ deps_list_to_js keys paths ++ "\n".data ++
      imports_ending_marker ++ "\n".data ++ contentExportJs content : List Char).length - 1, ?_⟩
    simp [List.length_append]
  rw [blockReplaceAll, hm, blockRAF]
  have hS : ("\nexport const importKeys = []\n".data ++
      imports_beginning_marker ++ "\n".data ++ deps_list_to_js keys paths ++ "\n".data ++
      imports_ending_marker ++ "\n".data ++ contentExportJs content : List Char) =
      "\nexport const importKeys = []\n".data ++ (imports_beginning_marker ++
        ("\n".data ++ deps_list_to_js keys paths ++ "\n".data ++
          (imports_ending_marker ++ ("\n".data ++ contentExportJs content)))) := by
    simp [List.append_assoc]
  rw [hS]
  rw [splitFirstOcc_first (by decide) (by decide)]
  dsimp only []
  have hdw : ("\n".data ++ deps_list_to_js keys paths ++ "\n".data ++
      (imports_ending_marker ++ ("\n".data ++ contentExportJs content))).dropWhile sepChar =
      ("\n".data ++ deps_list_to_js keys paths ++ "\n".data) ++
        (imports_ending_marker ++ ("\n".data ++ contentExportJs content)) := by
    rw [show ("\n".data ++ deps_list_to_js keys paths ++ "\n".data ++
      (imports_ending_marker ++ ("\n".data ++ contentExportJs content)) : List Char) =
      '\n' :: (deps_list_to_js keys paths ++ "\n".data ++
        (imports_ending_marker ++ ("\n".data ++ contentExportJs content))) by
        simp [List.append_assoc]]
    rw [List.dropWhile_cons, if_neg (by decide)]
  rw [hdw]
  rw [splitFirstOcc_first (by decide) hnoE]
  dsimp only []
  rw [hstrip]
  rw [blockRAF_no_marker m ( splitFirstOcc_of_not_infix (by decide) hnoB3)]
  simp [List.append_assoc]

/-! ### Metadata reconciliation and the assembled round trip -/

theorem updateMetaF_entries (keys paths : List JStr) (hlen : keys.length = paths.length) :
    updateMetaF keys paths (parseToJsMetaEntries keys paths) =
      some ((keys.zip paths).map (fun kp => ⟨kp.1, kp.2, kp.2⟩)) := by
  induction keys generalizing paths with
  | nil =>
    cases paths with
    | nil => rfl
    | cons p ps => simp at hlen
  | cons k ks ih =>
    cases paths with
    | nil => simp at hlen
    | cons p ps =>
      rw [parseToJsMetaEntries, List.zip_cons_cons, List.map_cons]
      rw [updateMetaF]
      rw [if_neg (fun h => h rfl)]
      have hlen2 : ks.length = ps.length := by
        simp at hlen
        exact hlen
      have hrec : updateMetaF ks ps ((ks.zip ps).map (fun kp => ⟨kp.1, kp.2, []⟩)) =
          some ((ks.zip ps).map (fun kp => ⟨kp.1, kp.2, kp.2⟩)) := ih ps hlen2
      rw [hrec]
      simp [List.zip_cons_cons]

theorem unparse_parse_general (P : LoaderPolicy) (st : LoaderState) (raw : JStr)
    (hlen : (P.extractDeps raw).importKeys.length = (P.extractDeps raw).importPaths.length)
    (hkeys : ∀ k ∈ (P.extractDeps raw).importKeys,
      jsonPlain k = true ∧ ¬ "await".data <:+: k ∧ ¬ imports_ending_marker <:+: k)
    (hpaths : ∀ p ∈ (P.extractDeps raw).importPaths,
      jsonPlain p = true ∧ noLineTerm p = true ∧
      ¬ imports_ending_marker <:+: p)
    (hraw : rawSafe (P.extractDeps raw).content = true)
    (hnoB : ¬ imports_beginning_marker <:+: (P.extractDeps raw).content)
    (hmeta : st.configMeta = true → st.metaImports = []) :
    unparseFromJs P (parseToJs P st raw).2 (parseToJs P st raw).1 =
      some (P.insertDeps ⟨(P.extractDeps raw).importKeys, (P.extractDeps raw).importPaths,
          (P.extractDeps raw).content⟩,
        { configMeta := st.configMeta,
          metaImports := if st.configMeta then
              ((P.extractDeps raw).importKeys.zip (P.extractDeps raw).importPaths).map
                (fun kp => ⟨kp.1, kp.2, kp.2⟩)
            else st.metaImports ++ parseToJsMetaEntries
              (P.extractDeps raw).importKeys (P.extractDeps raw).importPaths }) := by
  cases hd : P.extractDeps raw with
  | mk keys paths content =>
  rw [hd] at hlen hkeys hpaths hraw hnoB
  dsimp only [] at hlen hkeys hpaths hraw hnoB
  have hjs : (parseToJs P st raw).1 =
      "\nexport const importKeys = []\n".data ++
        imports_beginning_marker ++ "\n".data ++
        deps_list_to_js keys paths ++ "\n".data ++
        imports_ending_marker ++ "\n".data ++
        contentExportJs content := by
    rw [parseToJs, hd]
  have hst : (parseToJs P st raw).2 =
      { st with metaImports := st.metaImports ++ parseToJsMetaEntries keys paths } := by
    rw [parseToJs, hd]
    rfl
  rw [hjs, hst, unparseFromJs]
  dsimp only []
  rw [blockReplaceAll_parseToJs hlen hkeys hpaths hnoB]
  dsimp only []
  rw [show evalModule ("\nexport const importKeys = []\n".data ++
      ("\n".data ++ (keys.map key_push_residual).flatten ++ "\n".data) ++
      ("\n".data ++ contentExportJs content)) = some (keys, content) from
    evalModule_residual (fun k hk => (hkeys k hk).1) hraw]
  dsimp only []
  have hcountlen : (parseToJsMetaEntries keys paths).length = keys.length := by
    rw [parseToJsMetaEntries]
    simp [List.length_zip, hlen]
  have hcond : ¬ (DEBUG_ASSERT ∧
      (keys.length ≠ paths.length ∨
        (DEBUG_META ∧ st.configMeta = true ∧
          keys.length ≠ (st.metaImports ++ parseToJsMetaEntries keys paths).length))) := by
    rintro ⟨-, h | ⟨-, hcm, hne⟩⟩
    · exact h hlen
    · apply hne
      rw [List.length_append, hmeta hcm, hcountlen]
      simp
  rw [if_neg hcond]
  cases hcm : st.configMeta with
  | true =>
    rw [if_pos (show DEBUG_META = true ∧ true = true from ⟨rfl, rfl⟩)]
    rw [hmeta hcm]
    rw [List.nil_append]
    rw [updateMetaF_entries keys paths hlen]
    dsimp only []
    rw [if_pos (show (true = true) from rfl)]
  | false =>
    rw [if_neg (show ¬ (DEBUG_META = true ∧ false = true) from
      fun h => Bool.noConfusion h.2)]
    rw [if_neg (show ¬ (false = true) from fun h => Bool.noConfusion h)]

/-! ### Separator-variant marked regions -/

theorem sepChar_cases {c : Char} (hc : sepChar c = true) : c = ',' ∨ c = ';' := by
  rw [sepChar] at hc
  simpa using hc

theorem not_infix_of_short {pat s : List Char} (h : s.length < pat.length) :
    ¬ pat <:+: s :=
  fun hc => absurd hc.length_le (by omega)

theorem getLast?_append_single (l : List Char) (a : Char) :
    (l ++ [a]).getLast? = some a := by
  simp

theorem dropWhile_id_of_head {s : List Char} {d : Char} (h : s.head? = some d)
    (hd : sepChar d = false) : s.dropWhile sepChar = s := by
  cases s with
  | nil => rfl
  | cons x t =>
    rw [List.head?_cons, Option.some.injEq] at h
    subst h
    rw [List.dropWhile_cons, if_neg (by simp [hd])]

theorem flatMap_sep_shift (c : Char) : ∀ (L : List JStr),
    (L.flatMap (fun st => [c] ++ st)) ++ [c] = c :: L.flatMap (fun st => st ++ [c]) := by
  intro L
  induction L with
  | nil => rfl
  | cons s rest ih =>
    simp only [List.flatMap_cons, List.singleton_append, List.cons_append,
      List.append_assoc, List.nil_append] at ih ⊢
    rw [ih]

theorem pairStmts_flatMap (g : JStr → JStr) (keys paths : List JStr) :
    (pairStmts keys paths).flatMap g =
      (keys.zip paths).flatMap (fun kp =>
        g ("importKeys.push(".data ++ json_stringify kp.1 ++ ")".data) ++
        g ("await import(".data ++ json_stringify kp.2 ++ ")".data)) := by
  rw [pairStmts, List.flatMap_assoc]
  simp only [List.flatMap_cons, List.flatMap_nil, List.append_nil]

theorem dep_pair_split (kp : JStr × JStr) : dep_pair_to_js kp =
    ("\n".data ++ ("importKeys.push(".data ++ json_stringify kp.1 ++ ")".data)) ++
      ("\n".data ++ ("await import(".data ++ json_stringify kp.2 ++ ")".data)) := by
  rw [dep_pair_to_js]
  have e1 : "\nimportKeys.push(".data = "\n".data ++ "importKeys.push(".data := by decide
  have e3 : ")\nawait import(".data = ")".data ++ ("\n".data ++ "await import(".data) := by
    decide
  have e5 : ")".data = [')'] := by decide
  rw [e1, e3]
  simp [List.append_assoc]

theorem not_E_infix_sep_seg {k p : List Char} {c : Char} (hc : sepChar c = true)
    (hkP : jsonPlain k = true) (hkE : ¬ imports_ending_marker <:+: k)
    (hpP : jsonPlain p = true) (hpE : ¬ imports_ending_marker <:+: p) :
    ¬ imports_ending_marker <:+:
      (("importKeys.push(".data ++ json_stringify k ++ ")".data ++ [c]) ++
       ("await import(".data ++ json_stringify p ++ ")".data ++ [c])) := by
  have hcE : c ∉ imports_ending_marker := by
    rcases sepChar_cases hc with rfl | rfl <;> decide
  have e1 : "importKeys.push(\"".data = "importKeys.push(".data ++ ['"'] := by decide
  have e4 : "await import(\"".data = "await import(".data ++ ['"'] := by decide
  have hshape : (("importKeys.push(".data ++ json_stringify k ++ ")".data ++ [c]) ++
       ("await import(".data ++ json_stringify p ++ ")".data ++ [c])) =
      ("importKeys.push(\"".data ++ k) ++
        ((['"'] ++ ")".data ++ [c]) ++
          (("await import(\"".data ++ p) ++ (['"'] ++ ")".data ++ [c]))) := by
    rw [json_stringify_plain hkP, json_stringify_plain hpP, e1, e4]
    simp [List.append_assoc]
  rw [hshape]
  apply not_infix_append_right (y := '"')
  · apply not_infix_append_left (x := '"')
    · decide
    · exact hkE
    · decide
    · decide
  · apply not_infix_append_left (x := c)
    · exact not_infix_of_short (by simp [imports_ending_marker])
    · apply not_infix_append_right (y := '"')
      · apply not_infix_append_left (x := '"')
        · decide
        · exact hpE
        · decide
        · decide
      · exact not_infix_of_short (by simp [imports_ending_marker])
      · rfl
      · decide
    · exact getLast?_append_single _ c
    · exact hcE
  · rfl
  · decide

theorem not_E_infix_sep_region {c : Char} (hc : sepChar c = true) :
    ∀ (pairs : List (JStr × JStr)),
    (∀ kp ∈ pairs, jsonPlain kp.1 = true ∧ ¬ imports_ending_marker <:+: kp.1) →
    (∀ kp ∈ pairs, jsonPlain kp.2 = true ∧ ¬ imports_ending_marker <:+: kp.2) →
    ¬ imports_ending_marker <:+: pairs.flatMap (fun kp =>
        ("importKeys.push(".data ++ json_stringify kp.1 ++ ")".data ++ [c]) ++
        ("await import(".data ++ json_stringify kp.2 ++ ")".data ++ [c])) := by
  intro pairs
  induction pairs with
  | nil =>
    intro _ _ hcon
    exact absurd (List.eq_nil_of_infix_nil hcon) (by decide)
  | cons kp rest ih =>
    intro hk hp
    obtain ⟨k, p⟩ := kp
    rw [List.flatMap_cons]
    have hseg := not_E_infix_sep_seg hc (hk (k, p) (List.mem_cons_self _ _)).1
      (hk (k, p) (List.mem_cons_self _ _)).2 (hp (k, p) (List.mem_cons_self _ _)).1
      (hp (k, p) (List.mem_cons_self _ _)).2
    cases rest with
    | nil => simpa using hseg
    | cons r0 rs =>
      have hcE : c ∉ imports_ending_marker := by
        rcases sepChar_cases hc with rfl | rfl <;> decide
      apply not_infix_append_left (x := c)
      · exact hseg
      · exact ih (fun x hx => hk x (List.mem_cons_of_mem _ hx))
          (fun x hx => hp x (List.mem_cons_of_mem _ hx))
      · rw [show (("importKeys.push(".data ++ json_stringify k ++ ")".data ++ [c]) ++
          ("await import(".data ++ json_stringify p ++ ")".data ++ [c]) : List Char) =
          (("importKeys.push(".data ++ json_stringify k ++ ")".data ++ [c]) ++
            ("await import(".data ++ json_stringify p ++ ")".data)) ++ [c] by
            simp [List.append_assoc]]
        exact getLast?_append_single _ c
      · exact hcE

theorem seg_flatMap_getLast {c : Char} : ∀ (pairs : List (JStr × JStr)), pairs ≠ [] →
    (pairs.flatMap (fun kp =>
        ("importKeys.push(".data ++ json_stringify kp.1 ++ ")".data ++ [c]) ++
        ("await import(".data ++ json_stringify kp.2 ++ ")".data ++ [c]))).getLast? =
      some c := by
  intro pairs
  induction pairs with
  | nil => intro h; exact absurd rfl h
  | cons kp rest ih =>
    intro _
    rw [List.flatMap_cons]
    cases rest with
    | nil =>
      rw [List.flatMap_nil, List.append_nil]
      rw [show (("importKeys.push(".data ++ json_stringify kp.1 ++ ")".data ++ [c]) ++
          ("await import(".data ++ json_stringify kp.2 ++ ")".data ++ [c]) : List Char) =
          (("importKeys.push(".data ++ json_stringify kp.1 ++ ")".data ++ [c]) ++
            ("await import(".data ++ json_stringify kp.2 ++ ")".data)) ++ [c] by
            simp [List.append_assoc]]
      exact getLast?_append_single _ c
    | cons r0 rs =>
      have hne : ((r0 :: rs).flatMap (fun kp =>
          ("importKeys.push(".data ++ json_stringify kp.1 ++ ")".data ++ [c]) ++
          ("await import(".data ++ json_stringify kp.2 ++ ")".data ++ [c]))) ≠ [] := by
        rw [List.flatMap_cons]
        simp
      rw [getLast?_of_suffix (List.suffix_append _ _) hne]
      exact ih (by simp)

theorem stripImports_pairs_sep {c : Char} (hc : sepChar c = true) :
    ∀ (pairs : List (JStr × JStr)),
    (∀ kp ∈ pairs, jsonPlain kp.1 = true ∧ ¬ "await".data <:+: kp.1) →
    (∀ kp ∈ pairs, jsonPlain kp.2 = true ∧ noLineTerm kp.2 = true) →
    (stripImports (pairs.flatMap (fun kp =>
        ("importKeys.push(".data ++ json_stringify kp.1 ++ ")".data ++ [c]) ++
        ("await import(".data ++ json_stringify kp.2 ++ ")".data ++ [c])))).2 =
      pairs.map Prod.snd := by
  intro pairs
  induction pairs with
  | nil => intro _ _; rfl
  | cons kp rest ih =>
    intro hk hp
    obtain ⟨k, p⟩ := kp
    have hk1 := (hk (k, p) (List.mem_cons_self _ _)).1
    have hk2 := (hk (k, p) (List.mem_cons_self _ _)).2
    have hp1 := (hp (k, p) (List.mem_cons_self _ _)).1
    have hp2 := (hp (k, p) (List.mem_cons_self _ _)).2
    have e1 : "importKeys.push(\"".data = "importKeys.push(".data ++ ['"'] := by decide
    have e4 : "await import(\"".data = "await import(".data ++ ['"'] := by decide
    rw [List.flatMap_cons]
    have hshape : ((("importKeys.push(".data ++ json_stringify k ++ ")".data ++ [c]) ++
        ("await import(".data ++ json_stringify p ++ ")".data ++ [c])) ++
          (rest.flatMap (fun kp =>
            ("importKeys.push(".data ++ json_stringify kp.1 ++ ")".data ++ [c]) ++
            ("await import(".data ++ json_stringify kp.2 ++ ")".data ++ [c])))) =
        ("importKeys.push(\"".data ++ k ++ "\")".data ++ [c]) ++
          ("await import(\"".data ++ p ++ "\")".data ++
            ([c] ++ rest.flatMap (fun kp =>
              ("importKeys.push(".data ++ json_stringify kp.1 ++ ")".data ++ [c]) ++
              ("await import(".data ++ json_stringify kp.2 ++ ")".data ++ [c])))) := by
      rw [json_stringify_plain hk1, json_stringify_plain hp1, e1, e4]
      have e2 : "\")".data = ['"'] ++ ")".data := by decide
      rw [e2]
      simp [List.append_assoc]
    rw [hshape]
    have hA : ¬ "await".data <:+:
        ("importKeys.push(\"".data ++ k ++ "\")".data ++ [c]) ++
          ("await import(\"".data ++ p ++ "\")".data ++
            ([c] ++ rest.flatMap (fun kp =>
              ("importKeys.push(".data ++ json_stringify kp.1 ++ ")".data ++ [c]) ++
              ("await import(".data ++ json_stringify kp.2 ++ ")".data ++ [c])))).take 4 := by
      have ht4 : ("await import(\"".data ++ p ++ "\")".data ++
          ([c] ++ rest.flatMap (fun kp =>
            ("importKeys.push(".data ++ json_stringify kp.1 ++ ")".data ++ [c]) ++
            ("await import(".data ++ json_stringify kp.2 ++ ")".data ++ [c])))).take 4 =
          "awai".data := by
        rw [show ("await import(\"".data ++ p ++ "\")".data ++
            ([c] ++ rest.flatMap (fun kp =>
              ("importKeys.push(".data ++ json_stringify kp.1 ++ ")".data ++ [c]) ++
              ("await import(".data ++ json_stringify kp.2 ++ ")".data ++ [c]))) : List Char) =
            "await import(\"".data ++ (p ++ ("\")".data ++
              ([c] ++ rest.flatMap (fun kp =>
                ("importKeys.push(".data ++ json_stringify kp.1 ++ ")".data ++ [c]) ++
                ("await import(".data ++ json_stringify kp.2 ++ ")".data ++ [c]))))) by
              simp [List.append_assoc]]
        rw [List.take_append_of_le_length (by decide)]
        decide
      rw [ht4]
      rw [show ("importKeys.push(\"".data ++ k ++ "\")".data ++ [c] ++ "awai".data :
          List Char) =
          ("importKeys.push(\"".data ++ k) ++ ("\")".data ++ ([c] ++ "awai".data)) by
            simp [List.append_assoc]]
      apply not_infix_append_right (y := '"')
      · apply not_infix_append_left (x := '"')
        · decide
        · exact hk2
        · decide
        · decide
      · rcases sepChar_cases hc with rfl | rfl <;> decide
      · rfl
      · decide
    rw [stripImports_no_await hA]
    have hmatch := @matchImportAt_stmt p
      ([c] ++ rest.flatMap (fun kp =>
        ("importKeys.push(".data ++ json_stringify kp.1 ++ ")".data ++ [c]) ++
        ("await import(".data ++ json_stringify kp.2 ++ ")".data ++ [c])))
      (jsonPlain_no_quote hp1) (noLineTerm_mem hp2)
    have hWne : ("await import(\"".data ++ p ++ "\")".data ++
        ([c] ++ rest.flatMap (fun kp =>
          ("importKeys.push(".data ++ json_stringify kp.1 ++ ")".data ++ [c]) ++
          ("await import(".data ++ json_stringify kp.2 ++ ")".data ++ [c])))) ≠ [] := by
      simp [e4]
    rw [stripImports_match hWne hmatch]
    have hdrop : (([c] ++ rest.flatMap (fun kp =>
        ("importKeys.push(".data ++ json_stringify kp.1 ++ ")".data ++ [c]) ++
        ("await import(".data ++ json_stringify kp.2 ++ ")".data ++ [c]))).dropWhile
          sepChar) =
        rest.flatMap (fun kp =>
          ("importKeys.push(".data ++ json_stringify kp.1 ++ ")".data ++ [c]) ++
          ("await import(".data ++ json_stringify kp.2 ++ ")".data ++ [c])) := by
      rw [List.singleton_append, List.dropWhile_cons, if_pos hc]
      cases rest with
      | nil => rfl
      | cons r0 rs =>
        apply dropWhile_id_of_head (d := 'i')
        · rw [List.flatMap_cons]
          rw [show ("importKeys.push(".data ++ json_stringify r0.1 ++ ")".data ++ [c] :
              List Char) = 'i' :: ("mportKeys.push(".data ++ json_stringify r0.1 ++
                ")".data ++ [c]) by simp [List.append_assoc]]
          rfl
        · decide
    rw [hdrop]
    dsimp only []
    rw [ih (fun x hx => hk x (List.mem_cons_of_mem _ hx))
      (fun x hx => hp x (List.mem_cons_of_mem _ hx))]
    rfl

theorem blockRA_sepVariant_nl {keys paths : List JStr} {tail : JStr}
    (hkeys : ∀ k ∈ keys, jsonPlain k = true ∧ ¬ "await".data <:+: k ∧
      ¬ imports_ending_marker <:+: k)
    (hpaths : ∀ p ∈ paths, jsonPlain p = true ∧ noLineTerm p = true ∧
      ¬ imports_ending_marker <:+: p)
    (htail : ¬ imports_beginning_marker <:+: tail) :
    (blockReplaceAll (sepVariantScript "\n".data (pairStmts keys paths) tail)).2 =
      (keys.zip paths).map Prod.snd := by
  have hkz : ∀ kp ∈ keys.zip paths, jsonPlain kp.1 = true ∧ ¬ "await".data <:+: kp.1 := by
    intro kp hkp
    have := hkeys kp.1 (List.of_mem_zip hkp).1
    exact ⟨this.1, this.2.1⟩
  have hkzE : ∀ kp ∈ keys.zip paths, jsonPlain kp.1 = true ∧
      ¬ imports_ending_marker <:+: kp.1 := by
    intro kp hkp
    have := hkeys kp.1 (List.of_mem_zip hkp).1
    exact ⟨this.1, this.2.2⟩
  have hpz : ∀ kp ∈ keys.zip paths, jsonPlain kp.2 = true ∧ noLineTerm kp.2 = true := by
    intro kp hkp
    have := hpaths kp.2 (List.of_mem_zip hkp).2
    exact ⟨this.1, this.2.1⟩
  have hpzE : ∀ kp ∈ keys.zip paths, jsonPlain kp.2 = true ∧
      ¬ imports_ending_marker <:+: kp.2 := by
    intro kp hkp
    have := hpaths kp.2 (List.of_mem_zip hkp).2
    exact ⟨this.1, this.2.2⟩
  have hF : (pairStmts keys paths).flatMap (fun stmt => "\n".data ++ stmt) =
      deps_list_to_js keys paths := by
    rw [pairStmts_flatMap, deps_list_to_js, List.flatMap_def]
    congr 1
    apply List.map_congr_left
    intro kp _
    exact (dep_pair_split kp).symm
  have hscript : sepVariantScript "\n".data (pairStmts keys paths) tail =
      imports_beginning_marker ++
        ((deps_list_to_js keys paths ++ "\n".data) ++ (imports_ending_marker ++ tail)) := by
    rw [sepVariantScript, hF]
    simp [List.append_assoc]
  have hdw : ((deps_list_to_js keys paths ++ "\n".data) ++
      (imports_ending_marker ++ tail)).dropWhile sepChar =
      (deps_list_to_js keys paths ++ "\n".data) ++ (imports_ending_marker ++ tail) := by
    cases hzip : keys.zip paths with
    | nil =>
      rw [deps_list_to_js, hzip]
      simp only [List.map_nil, List.flatten_nil, List.nil_append]
      rw [show (("\n".data ++ (imports_ending_marker ++ tail)) : List Char) =
        '\n' :: (imports_ending_marker ++ tail) from rfl]
      rw [List.dropWhile_cons, if_neg (by decide)]
    | cons kp rs =>
      apply dropWhile_id_of_head (d := '\n')
      · rw [deps_list_to_js, hzip, List.map_cons, List.flatten_cons, dep_pair_to_js]
        simp
      · decide
  obtain ⟨m, hm⟩ : ∃ m,
      (sepVariantScript "\n".data (pairStmts keys paths) tail).length = m + 1 := by
    refine ⟨(sepVariantScript "\n".data (pairStmts keys paths) tail).length - 1, ?_⟩
    rw [hscript]
    simp [imports_beginning_marker]
  rw [blockReplaceAll, hm, blockRAF, hscript]
  have hsplit1 : splitFirstOcc imports_beginning_marker
      ([] ++ (imports_beginning_marker ++
        ((deps_list_to_js keys paths ++ "\n".data) ++ (imports_ending_marker ++ tail)))) =
      some ([], (deps_list_to_js keys paths ++ "\n".data) ++
        (imports_ending_marker ++ tail)) :=
    splitFirstOcc_first (by decide) (by decide)
  rw [List.nil_append] at hsplit1
  rw [hsplit1]
  dsimp only []
  rw [hdw]
  have hnoE : ¬ imports_ending_marker <:+:
      (deps_list_to_js keys paths ++ "\n".data) ++ imports_ending_marker.dropLast := by
    rw [List.append_assoc]
    apply not_infix_append_right (y := '\n')
    · rw [deps_list_to_js]
      exact not_E_infix_deps (keys.zip paths) hkzE hpzE
    · decide
    · rfl
    · decide
  rw [splitFirstOcc_first (by decide) hnoE]
  dsimp only []
  rw [deps_list_to_js, stripImports_pairs (keys.zip paths) hkz hpz]
  rw [blockRAF_no_marker m ( splitFirstOcc_of_not_infix (by decide) htail)]
  simp

theorem blockRA_sepVariant_c {keys paths : List JStr} {tail : JStr} {c : Char}
    (hc : sepChar c = true)
    (hkeys : ∀ k ∈ keys, jsonPlain k = true ∧ ¬ "await".data <:+: k ∧
      ¬ imports_ending_marker <:+: k)
    (hpaths : ∀ p ∈ paths, jsonPlain p = true ∧ noLineTerm p = true ∧
      ¬ imports_ending_marker <:+: p)
    (htail : ¬ imports_beginning_marker <:+: tail) :
    (blockReplaceAll (sepVariantScript [c] (pairStmts keys paths) tail)).2 =
      (keys.zip paths).map Prod.snd := by
  have hkz : ∀ kp ∈ keys.zip paths, jsonPlain kp.1 = true ∧ ¬ "await".data <:+: kp.1 := by
    intro kp hkp
    have := hkeys kp.1 (List.of_mem_zip hkp).1
    exact ⟨this.1, this.2.1⟩
  have hkzE : ∀ kp ∈ keys.zip paths, jsonPlain kp.1 = true ∧
      ¬ imports_ending_marker <:+: kp.1 := by
    intro kp hkp
    have := hkeys kp.1 (List.of_mem_zip hkp).1
    exact ⟨this.1, this.2.2⟩
  have hpz : ∀ kp ∈ keys.zip paths, jsonPlain kp.2 = true ∧ noLineTerm kp.2 = true := by
    intro kp hkp
    have := hpaths kp.2 (List.of_mem_zip hkp).2
    exact ⟨this.1, this.2.1⟩
  have hpzE : ∀ kp ∈ keys.zip paths, jsonPlain kp.2 = true ∧
      ¬ imports_ending_marker <:+: kp.2 := by
    intro kp hkp
    have := hpaths kp.2 (List.of_mem_zip hkp).2
    exact ⟨this.1, this.2.2⟩
  have hS2 : (pairStmts keys paths).flatMap (fun st => st ++ [c]) =
      (keys.zip paths).flatMap (fun kp =>
        ("importKeys.push(".data ++ json_stringify kp.1 ++ ")".data ++ [c]) ++
        ("await import(".data ++ json_stringify kp.2 ++ ")".data ++ [c])) := by
    rw [pairStmts_flatMap]
  have h3 : (pairStmts keys paths).flatMap (fun stmt => [c] ++ stmt) ++ [c] =
      c :: (keys.zip paths).flatMap (fun kp =>
        ("importKeys.push(".data ++ json_stringify kp.1 ++ ")".data ++ [c]) ++
        ("await import(".data ++ json_stringify kp.2 ++ ")".data ++ [c])) := by
    rw [flatMap_sep_shift c (pairStmts keys paths), hS2]
  have happ5 : ∀ (u v s w t : List Char), u ++ v ++ s ++ w ++ t =
      u ++ ((v ++ s) ++ (w ++ t)) := by
    intro u v s w t
    simp [List.append_assoc]
  have hscript : sepVariantScript [c] (pairStmts keys paths) tail =
      imports_beginning_marker ++
        (c :: ((keys.zip paths).flatMap (fun kp =>
          ("importKeys.push(".data ++ json_stringify kp.1 ++ ")".data ++ [c]) ++
          ("await import(".data ++ json_stringify kp.2 ++ ")".data ++ [c])) ++
            (imports_ending_marker ++ tail))) := by
    rw [sepVariantScript, happ5, h3]
    rfl
  have hdw : ((keys.zip paths).flatMap (fun kp =>
      ("importKeys.push(".data ++ json_stringify kp.1 ++ ")".data ++ [c]) ++
      ("await import(".data ++ json_stringify kp.2 ++ ")".data ++ [c])) ++
        (imports_ending_marker ++ tail)).dropWhile sepChar =
      (keys.zip paths).flatMap (fun kp =>
        ("importKeys.push(".data ++ json_stringify kp.1 ++ ")".data ++ [c]) ++
        ("await import(".data ++ json_stringify kp.2 ++ ")".data ++ [c])) ++
          (imports_ending_marker ++ tail) := by
    cases hzip : keys.zip paths with
    | nil =>
      simp only [List.flatMap_nil, List.nil_append]
      rw [show ((imports_ending_marker ++ tail) : List Char) =
        'g' :: ("lobalThis.end_of_imports()".data ++ tail) from rfl]
      rw [List.dropWhile_cons, if_neg (by decide)]
    | cons kp rs =>
      apply dropWhile_id_of_head (d := 'i')
      · rw [List.flatMap_cons]
        rw [show ("importKeys.push(".data ++ json_stringify kp.1 ++ ")".data ++ [c] :
            List Char) = 'i' :: ("mportKeys.push(".data ++ json_stringify kp.1 ++
              ")".data ++ [c]) by simp [List.append_assoc]]
        rfl
      · decide
  have hnoE : ¬ imports_ending_marker <:+:
      (keys.zip paths).flatMap (fun kp =>
        ("importKeys.push(".data ++ json_stringify kp.1 ++ ")".data ++ [c]) ++
        ("await import(".data ++ json_stringify kp.2 ++ ")".data ++ [c])) ++
          imports_ending_marker.dropLast := by
    cases hzip : keys.zip paths with
    | nil =>
      simp only [List.flatMap_nil, List.nil_append]
      decide
    | cons kp rs =>
      have hkzE2 : ∀ x ∈ kp :: rs, jsonPlain x.1 = true ∧
          ¬ imports_ending_marker <:+: x.1 := by
        rw [← hzip]
        exact hkzE
      have hpzE2 : ∀ x ∈ kp :: rs, jsonPlain x.2 = true ∧
          ¬ imports_ending_marker <:+: x.2 := by
        rw [← hzip]
        exact hpzE
      apply not_infix_append_left (x := c)
      · exact not_E_infix_sep_region hc (kp :: rs) hkzE2 hpzE2
      · decide
      · exact seg_flatMap_getLast (kp :: rs) (by simp)
      · rcases sepChar_cases hc with rfl | rfl <;> decide
  obtain ⟨m, hm⟩ : ∃ m,
      (sepVariantScript [c] (pairStmts keys paths) tail).length = m + 1 := by
    refine ⟨(sepVariantScript [c] (pairStmts keys paths) tail).length - 1, ?_⟩
    rw [hscript]
    simp [imports_beginning_marker]
  rw [blockReplaceAll, hm, blockRAF, hscript]
  have hsplit1 : splitFirstOcc imports_beginning_marker
      ([] ++ (imports_beginning_marker ++
        (c :: ((keys.zip paths).flatMap (fun kp =>
          ("importKeys.push(".data ++ json_stringify kp.1 ++ ")".data ++ [c]) ++
          ("await import(".data ++ json_stringify kp.2 ++ ")".data ++ [c])) ++
            (imports_ending_marker ++ tail))))) =
      some ([], c :: ((keys.zip paths).flatMap (fun kp =>
        ("importKeys.push(".data ++ json_stringify kp.1 ++ ")".data ++ [c]) ++
        ("await import(".data ++ json_stringify kp.2 ++ ")".data ++ [c])) ++
          (imports_ending_marker ++ tail))) :=
    splitFirstOcc_first (by decide) (by decide)
  rw [List.nil_append] at hsplit1
  rw [hsplit1]
  dsimp only []
  rw [List.dropWhile_cons, if_pos hc, hdw]
  rw [splitFirstOcc_first (by decide) hnoE]
  dsimp only []
  rw [blockRAF_no_marker m ( splitFirstOcc_of_not_infix (by decide) htail)]
  dsimp only []
  rw [stripImports_pairs_sep hc (keys.zip paths) hkz hpz]
  simp

/-! ### Metadata mismatch, zip projections by index, and the zip utilities -/

theorem updateMetaF_none_at : ∀ (ks ps : List JStr) (es : List ImportMetadataEntry)
    (i : Nat),
    (∀ j, j < i → (ks.get? j).map json_stringify =
      (es.get? j).map (fun e => json_stringify e.key)) →
    i < ps.length →
    (∃ ki ei, ks.get? i = some ki ∧ es.get? i = some ei ∧
      json_stringify ki ≠ json_stringify ei.key) →
    updateMetaF ks ps es = none := by
  intro ks ps es i
  induction i generalizing ks ps es with
  | zero =>
    intro _ hp hex
    obtain ⟨ki, ei, hki, hei, hne⟩ := hex
    cases ks with
    | nil => simp at hki
    | cons k kt =>
      cases es with
      | nil => simp at hei
      | cons e et =>
        cases ps with
        | nil => simp at hp
        | cons p pt =>
          rw [List.get?_cons_zero, Option.some.injEq] at hki hei
          subst hki
          subst hei
          rw [updateMetaF, if_pos hne]
  | succ i ih =>
    intro hpre hp hex
    obtain ⟨ki, ei, hki, hei, hne⟩ := hex
    cases ks with
    | nil => simp at hki
    | cons k kt =>
      cases es with
      | nil => simp at hei
      | cons e et =>
        cases ps with
        | nil => simp at hp
        | cons p pt =>
          have h0 := hpre 0 (Nat.succ_pos i)
          rw [List.get?_cons_zero, List.get?_cons_zero] at h0
          simp only [Option.map_some'] at h0
          rw [Option.some.injEq] at h0
          rw [updateMetaF, if_neg (fun hcc => hcc h0)]
          have hrec : updateMetaF kt pt et = none := by
            apply ih kt pt et
            · intro j hj
              have := hpre (j + 1) (Nat.succ_lt_succ hj)
              rwa [List.get?_cons_succ, List.get?_cons_succ] at this
            · have : i + 1 < pt.length + 1 := by simpa using hp
              omega
            · refine ⟨ki, ei, ?_, ?_, hne⟩
              · rwa [List.get?_cons_succ] at hki
              · rwa [List.get?_cons_succ] at hei
          rw [hrec]
          rfl

theorem zip_get?_eq {α β : Type} : ∀ (l1 : List α) (l2 : List β),
    l1.length = l2.length → ∀ i,
    ((l1.zip l2).get? i).map Prod.fst = l1.get? i ∧
    ((l1.zip l2).get? i).map Prod.snd = l2.get? i := by
  intro l1
  induction l1 with
  | nil =>
    intro l2 hl i
    rw [(List.length_eq_zero.mp hl.symm)]
    exact ⟨rfl, rfl⟩
  | cons a t ih =>
    intro l2 hl i
    cases l2 with
    | nil => simp at hl
    | cons b u =>
      rw [List.zip_cons_cons]
      cases i with
      | zero => exact ⟨rfl, rfl⟩
      | succ i =>
        rw [List.get?_cons_succ, List.get?_cons_succ, List.get?_cons_succ]
        exact ih u (by simpa using hl) i

theorem foldl_min_le : ∀ (ns : List Nat) (n : Nat), ns.foldl Nat.min n ≤ n ∧
    ∀ x ∈ ns, ns.foldl Nat.min n ≤ x := by
  intro ns
  induction ns with
  | nil => intro n; exact ⟨Nat.le_refl n, by simp⟩
  | cons a t ih =>
    intro n
    rw [List.foldl_cons]
    constructor
    · exact Nat.le_trans (ih (Nat.min n a)).1 (Nat.min_le_left _ _)
    · intro x hx
      rcases List.mem_cons.mp hx with rfl | hx2
      · exact Nat.le_trans (ih (Nat.min n x)).1 (Nat.min_le_right _ _)
      · exact (ih (Nat.min n a)).2 x hx2

theorem foldl_min_mem : ∀ (ns : List Nat) (n : Nat), ns.foldl Nat.min n = n ∨
    ns.foldl Nat.min n ∈ ns := by
  intro ns
  induction ns with
  | nil => intro n; exact Or.inl rfl
  | cons a t ih =>
    intro n
    rw [List.foldl_cons]
    rcases ih (Nat.min n a) with h | h
    · rcases Nat.le_total n a with hna | hna
      · have hmin : Nat.min n a = n := by
          show min n a = n
          exact min_eq_left hna
        exact Or.inl (by rw [h, hmin])
      · have hmin : Nat.min n a = a := by
          show min n a = a
          exact min_eq_right hna
        exact Or.inr (by rw [h, hmin]; exact List.mem_cons_self a t)
    · exact Or.inr (List.mem_cons_of_mem a h)

theorem zipTupleAt_all_some {α : Type} {i : Nat} : ∀ (arrays : List (List α)),
    (∀ a ∈ arrays, i < a.length) →
    (zipTupleAt arrays i).length = arrays.length ∧
    ∀ j, (zipTupleAt arrays i).get? j = (arrays.get? j).bind (fun arr => arr.get? i) := by
  intro arrays
  induction arrays with
  | nil =>
    intro _
    refine ⟨rfl, fun j => ?_⟩
    cases j <;> rfl
  | cons a t ih =>
    intro h
    have ha : i < a.length := h a (List.mem_cons_self _ _)
    have hsome : a.get? i = some a[i] := List.get?_eq_get ha
    have hstep : zipTupleAt (a :: t) i = a[i] :: zipTupleAt t i := by
      rw [zipTupleAt, List.filterMap_cons, hsome]
      rfl
    obtain ⟨ihl, ihg⟩ := ih (fun x hx => h x (List.mem_cons_of_mem a hx))
    constructor
    · rw [hstep, List.length_cons, ihl, List.length_cons]
    · intro j
      cases j with
      | zero => rw [hstep, List.get?_cons_zero, List.get?_cons_zero]; exact hsome.symm
      | succ j =>
        rw [hstep, List.get?_cons_succ, List.get?_cons_succ]
        exact ihg j

/-! ### The claims -/

/-- C9: the spec requires every in-memory script blob (object URL) created by
`unparseFromJs` for dynamic evaluation to be released (revoked) promptly after
evaluation completes; the method, however, creates the blob and its object URL
and dynamically imports it without ever calling `URL.revokeObjectURL`, so the
blob URL outlives every `unparseFromJs` call. -/
theorem C9_blob_url_never_revoked :
    ∀ js : JStr, ResourceEvent.createObjectURL ∈ unparseResourceEvents js ∧
      ResourceEvent.revokeObjectURL ∉ unparseResourceEvents js := by
  intro js
  rw [unparseResourceEvents]
  exact ⟨by decide, by decide⟩

/-- C3 (amended): for every content string that is safe for `String.raw`
re-export — no carriage return anywhere (the template raw value normalizes
`<CR>` and `<CR><LF>` to `<LF>`), no backslash at the end, and no backslash
immediately in front of `$`, of a backtick, or of `</script>` — evaluating
the script fragment produced by `contentExportJs` yields a `content` value
byte-for-byte equal to the input string, including inputs containing `$`,
backticks and `</script>`. -/
theorem C3_content_escaping_amended {content : JStr} (h : rawSafe content = true) :
    evalContentExport (contentExportJs content) = some content :=
  contentExportJs_eval h

/-- The original C3 claim fails for every content string: the single-character
content `\` produces a fragment whose template literal is left unterminated
(the backslash escapes the closing backtick), so evaluation throws instead of
reproducing the input. -/
theorem C3_content_escaping_counterexample :
    evalContentExport (contentExportJs ("\\").data) = none := by decide

/-- Witness: the amended C3 theorem applied to a content string containing a
`$`, a backtick and `</script>`. -/
theorem C3_content_escaping_witness :
    rawSafe hazardContent = true ∧
    evalContentExport (contentExportJs hazardContent) = some hazardContent :=
  ⟨by decide, C3_content_escaping_amended (by decide)⟩

/-- C5: for every policy, loader state and input document, the script emitted
by `parseToJs` is exactly the layout required by the spec: the exported empty
`importKeys` declaration, the begin marker `globalThis.start_of_imports()`,
the `importKeys.push(<json(key)>)` / `await import(<json(path)>)` statement
pair for each key/path pair in extraction order, the end marker
`globalThis.end_of_imports()`, and the content-export fragment. -/
theorem C5_wrapped_layout (P : LoaderPolicy) (st : LoaderState) (raw : JStr) :
    (parseToJs P st raw).1 = specWrappedScript
      ((P.extractDeps raw).importKeys.zip (P.extractDeps raw).importPaths)
      (contentExportJs (P.extractDeps raw).content) := by
  rw [parseToJs, specWrappedScript, List.flatMap_def]
  rfl

/-- C10 (amended): for every nonempty list of input arrays, `zipArrays`
returns a list of positional tuples whose length is the minimum of the input
lengths, the `i`-th tuple holding the `i`-th element of each input array in
order (elements beyond the minimum are dropped silently), and the mappers of
`zipArraysMapperFactory` apply the mapping function to exactly those tuples;
with zero input arrays both loop forever (`Math.min()` is `Infinity`),
modelled by `none`. -/
theorem C10_zip_min_amended {α : Type} (arrays : List (List α)) (h : arrays ≠ []) :
    ∃ m, arraysMinLen arrays = some m ∧
      (∀ a ∈ arrays, m ≤ a.length) ∧ (∃ a ∈ arrays, a.length = m) ∧
      zipArrays arrays = some ((List.range m).map (zipTupleAt arrays)) ∧
      (∀ i, i < m → (zipTupleAt arrays i).length = arrays.length ∧
        ∀ j, (zipTupleAt arrays i).get? j = (arrays.get? j).bind (fun arr => arr.get? i)) ∧
      (∀ (β : Type) (g : List α → Nat → β), zipArraysMapperFactory g arrays =
        some ((List.range m).map (fun i => g (zipTupleAt arrays i) i))) := by
  cases arrays with
  | nil => exact absurd rfl h
  | cons a t =>
    have hmin : arraysMinLen (a :: t) =
        some ((t.map List.length).foldl Nat.min a.length) := rfl
    have hle : ∀ arr ∈ a :: t,
        (t.map List.length).foldl Nat.min a.length ≤ arr.length := by
      intro arr harr
      rcases List.mem_cons.mp harr with rfl | h2
      · exact (foldl_min_le (t.map List.length) arr.length).1
      · exact (foldl_min_le _ _).2 arr.length (List.mem_map_of_mem _ h2)
    refine ⟨(t.map List.length).foldl Nat.min a.length, hmin, hle, ?_, ?_, ?_, ?_⟩
    · rcases foldl_min_mem (t.map List.length) a.length with he | he
      · exact ⟨a, List.mem_cons_self a t, he.symm⟩
      · obtain ⟨arr, harr, hlen2⟩ := List.mem_map.mp he
        exact ⟨arr, List.mem_cons_of_mem a harr, hlen2⟩
    · rw [zipArrays, hmin]
    · intro i hi
      apply zipTupleAt_all_some
      intro arr harr
      exact Nat.lt_of_lt_of_le hi (hle arr harr)
    · intro β g
      rw [zipArraysMapperFactory, hmin]

/-- The original C10 claim fails with zero input arrays: `Math.min()` of no
arguments is `Infinity`, so the loop of `zipArrays` never terminates instead
of returning the empty zip; the model value is `none`, not `some []`. -/
theorem C10_zip_min_counterexample : zipArrays ([] : List (List Nat)) = none := rfl

/-- Witness: the amended C10 theorem applied to the arrays `[1,2,3]` and
`[4,5]`. -/
theorem C10_zip_min_witness :
    (([[1, 2, 3], [4, 5]] : List (List Nat)) ≠ []) ∧
    (∃ m, arraysMinLen ([[1, 2, 3], [4, 5]] : List (List Nat)) = some m ∧
      (∀ a ∈ ([[1, 2, 3], [4, 5]] : List (List Nat)), m ≤ a.length) ∧
      (∃ a ∈ ([[1, 2, 3], [4, 5]] : List (List Nat)), a.length = m) ∧
      zipArrays ([[1, 2, 3], [4, 5]] : List (List Nat)) =
        some ((List.range m).map (zipTupleAt [[1, 2, 3], [4, 5]])) ∧
      (∀ i, i < m →
        (zipTupleAt ([[1, 2, 3], [4, 5]] : List (List Nat)) i).length =
          ([[1, 2, 3], [4, 5]] : List (List Nat)).length ∧
        ∀ j, (zipTupleAt ([[1, 2, 3], [4, 5]] : List (List Nat)) i).get? j =
          (([[1, 2, 3], [4, 5]] : List (List Nat)).get? j).bind
            (fun arr => arr.get? i)) ∧
      (∀ (β : Type) (g : List Nat → Nat → β),
        zipArraysMapperFactory g ([[1, 2, 3], [4, 5]] : List (List Nat)) =
          some ((List.range m).map
            (fun i => g (zipTupleAt [[1, 2, 3], [4, 5]] i) i)))) :=
  ⟨by decide, C10_zip_min_amended ([[1, 2, 3], [4, 5]] : List (List Nat)) (by decide)⟩

/-- C2: for every policy, loader state and transformed script in which the
number of `await import(…)` statements recovered from the marked region
differs from the length of the evaluated `importKeys` array, `unparseFromJs`
throws (the `DEBUG.ASSERT` count check fails, modelled by `none`) instead of
returning a truncated result. -/
theorem C2_count_mismatch_error (P : LoaderPolicy) (st : LoaderState) (js : JStr)
    (keys : List JStr) (content : JStr)
    (heval : evalModule (blockReplaceAll js).1 = some (keys, content))
    (hne : keys.length ≠ (blockReplaceAll js).2.length) :
    unparseFromJs P st js = none := by
  rw [unparseFromJs]
  dsimp only []
  rw [heval]
  dsimp only []
  rw [if_pos ⟨rfl, Or.inl hne⟩]

/-- Witness: a script with one pushed key and no import statement in any
marked region is rejected by the count check of `unparseFromJs`. -/
theorem C2_count_mismatch_error_witness : unparseFromJs trivPolicy st0 mismatchScript = none :=
  C2_count_mismatch_error trivPolicy st0 mismatchScript [("k").data] (("x").data)
    (by decide) (by decide)

/-- C4: when metadata collection is enabled, `unparseFromJs` verifies both
that the number of evaluated keys equals the number of recorded metadata
entries and that every evaluated key equals the recorded key at the same
position under canonical JSON serialization; on a count mismatch, or on a key
mismatch at a position all of whose predecessors match, it throws (modelled
by `none`) instead of populating the `out` fields. -/
theorem C4_meta_key_check (P : LoaderPolicy) (st : LoaderState) (js : JStr)
    (keys : List JStr) (content : JStr)
    (hcm : st.configMeta = true)
    (heval : evalModule (blockReplaceAll js).1 = some (keys, content))
    (hmis : keys.length ≠ st.metaImports.length ∨
      ∃ i, i < (blockReplaceAll js).2.length ∧
        (∀ j, j < i → (keys.get? j).map json_stringify =
          (st.metaImports.get? j).map (fun e => json_stringify e.key)) ∧
        ∃ ki ei, keys.get? i = some ki ∧ st.metaImports.get? i = some ei ∧
          json_stringify ki ≠ json_stringify ei.key) :
    unparseFromJs P st js = none := by
  rw [unparseFromJs]
  dsimp only []
  rw [heval]
  dsimp only []
  by_cases hassert : DEBUG_ASSERT = true ∧
      (keys.length ≠ (blockReplaceAll js).2.length ∨
        (DEBUG_META = true ∧ st.configMeta = true ∧
          keys.length ≠ st.metaImports.length))
  · rw [if_pos hassert]
  · rw [if_neg hassert, if_pos (show DEBUG_META = true ∧ st.configMeta = true from
      ⟨rfl, hcm⟩)]
    rcases hmis with hcount | ⟨i, hip, hpre, ki, ei, hki, hei, hne⟩
    · exact absurd ⟨rfl, Or.inr ⟨rfl, hcm, hcount⟩⟩ hassert
    · rw [updateMetaF_none_at keys (blockReplaceAll js).2 st.metaImports i hpre hip
        ⟨ki, ei, hki, hei, hne⟩]

/-- Witness: against a recorded metadata entry for the key `"k1"`, a
transformed script whose module evaluation pushes the key `"k2"` is rejected
by the key-identity check of `unparseFromJs`. -/
theorem C4_meta_key_check_witness :
    unparseFromJs trivPolicy stOneMeta metaMismatchScript = none :=
  C4_meta_key_check trivPolicy stOneMeta metaMismatchScript [("k2").data] (("x").data)
    (by decide) (by decide)
    (Or.inr ⟨0, by decide, fun j hj => absurd hj (Nat.not_lt_zero j),
      ("k2").data, ⟨("k1").data, ("p1").data, []⟩, by decide, by decide, by decide⟩)

/-- C1 (amended): for every conforming policy pair inverted by `insertDeps`
at the document, wrapping with `parseToJs` and unwrapping the unmodified
wrapped script with `unparseFromJs` on the same instance reproduces the
original document exactly, provided the extracted keys are JSON-plain and
contain neither `await` nor the end marker, the extracted paths are
JSON-plain, free of LineTerminator characters (the `s`-flag-less path group
of the inner regex cannot cross one) and do not contain the end marker, the
content is raw-safe (no carriage return and no backslash hazard) and does
not contain the begin marker, and no metadata was recorded before the cycle
when collection is enabled. -/
theorem C1_roundtrip_amended (P : LoaderPolicy) (st : LoaderState) (raw : JStr)
    (hins : P.insertDeps (P.extractDeps raw) = raw)
    (hlen : (P.extractDeps raw).importKeys.length = (P.extractDeps raw).importPaths.length)
    (hkeys : ∀ k ∈ (P.extractDeps raw).importKeys,
      jsonPlain k = true ∧ ¬ "await".data <:+: k ∧ ¬ imports_ending_marker <:+: k)
    (hpaths : ∀ p ∈ (P.extractDeps raw).importPaths,
      jsonPlain p = true ∧ noLineTerm p = true ∧
      ¬ imports_ending_marker <:+: p)
    (hraw : rawSafe (P.extractDeps raw).content = true)
    (hnoB : ¬ imports_beginning_marker <:+: (P.extractDeps raw).content)
    (hmeta : st.configMeta = true → st.metaImports = []) :
    (unparseFromJs P (parseToJs P st raw).2 (parseToJs P st raw).1).map Prod.fst =
      some raw := by
  rw [unparse_parse_general P st raw hlen hkeys hpaths hraw hnoB hmeta]
  simp only [Option.map_some']
  rw [show (⟨(P.extractDeps raw).importKeys, (P.extractDeps raw).importPaths,
    (P.extractDeps raw).content⟩ : ContentDependencies) = P.extractDeps raw from rfl]
  rw [hins]

/-- The original C1 claim fails: under the trivial conforming policy (no
dependencies, content reinstalled verbatim), a content string that itself
contains the two sentinel markers is mangled by the block replacement of
`unparseFromJs` (a second block match deletes most of the re-exported
content), so the round trip does not reproduce the input. -/
theorem C1_roundtrip_counterexample :
    (unparseFromJs trivPolicy (parseToJs trivPolicy st0 collisionContent).2
      (parseToJs trivPolicy st0 collisionContent).1).map Prod.fst ≠
      some collisionContent := by decide

/-- Witness: the amended C1 theorem applied to the single-dependency policy
and the document `"hello"`. -/
theorem C1_roundtrip_witness :
    (unparseFromJs oneDepPolicy (parseToJs oneDepPolicy st0 ("hello").data).2
      (parseToJs oneDepPolicy st0 ("hello").data).1).map Prod.fst =
      some (("hello").data) :=
  C1_roundtrip_amended oneDepPolicy st0 (("hello").data) rfl rfl (by decide) (by decide)
    (by decide) (by decide) (by decide)

/-- C7 (amended): for every conforming policy whose extraction yields zero
dependencies, `parseToJs` still emits both markers and the exported empty
`importKeys` declaration around an empty marked region, and `unparseFromJs`
on the unmodified wrapped script returns the original document and leaves the
loader state unchanged — provided the content is raw-safe (no carriage
return and no backslash hazard), does not contain the begin marker, and no
metadata was recorded before the cycle when collection is enabled. -/
theorem C7_zero_deps_amended (P : LoaderPolicy) (st : LoaderState) (raw : JStr)
    (hzk : (P.extractDeps raw).importKeys = [])
    (hzp : (P.extractDeps raw).importPaths = [])
    (hins : P.insertDeps (P.extractDeps raw) = raw)
    (hraw : rawSafe (P.extractDeps raw).content = true)
    (hnoB : ¬ imports_beginning_marker <:+: (P.extractDeps raw).content)
    (hmeta : st.configMeta = true → st.metaImports = []) :
    (parseToJs P st raw).1 =
      "\nexport const importKeys = []\n".data ++ imports_beginning_marker ++ "\n".data ++
        "\n".data ++ imports_ending_marker ++ "\n".data ++
        contentExportJs (P.extractDeps raw).content ∧
    unparseFromJs P (parseToJs P st raw).2 (parseToJs P st raw).1 = some (raw, st) := by
  constructor
  · rw [parseToJs]
    dsimp only []
    rw [deps_list_to_js, hzk]
    simp
  · rw [unparse_parse_general P st raw (by rw [hzk, hzp])
      (fun k hk => absurd (hzk ▸ hk) (List.not_mem_nil k))
      (fun p hp => absurd (hzp ▸ hp) (List.not_mem_nil p)) hraw hnoB hmeta]
    have hmi : (if st.configMeta then
        ((P.extractDeps raw).importKeys.zip (P.extractDeps raw).importPaths).map
          (fun kp => (⟨kp.1, kp.2, kp.2⟩ : ImportMetadataEntry))
      else st.metaImports ++ parseToJsMetaEntries
        (P.extractDeps raw).importKeys (P.extractDeps raw).importPaths) =
        st.metaImports := by
        cases hcm : st.configMeta with
        | true =>
          rw [if_pos rfl, hzk, hmeta hcm]
          rfl
        | false =>
          rw [if_neg (fun hcc => Bool.noConfusion hcc)]
          rw [parseToJsMetaEntries, hzk]
          simp
    rw [hmi]
    rw [show (⟨(P.extractDeps raw).importKeys, (P.extractDeps raw).importPaths,
      (P.extractDeps raw).content⟩ : ContentDependencies) = P.extractDeps raw from rfl]
    rw [hins]

/-- The original C7 claim fails: under the trivial zero-dependency policy the
single-character document `\` wraps into a fragment whose template literal is
unterminated, so `unparseFromJs` on the unmodified wrapped script throws
(modelled by `none`) instead of returning the original content. -/
theorem C7_zero_deps_counterexample :
    unparseFromJs trivPolicy (parseToJs trivPolicy st0 ("\\").data).2
      (parseToJs trivPolicy st0 ("\\").data).1 = none := by decide

/-- Witness: the amended C7 theorem applied to the trivial policy and the
document `"hello"`. -/
theorem C7_zero_deps_witness :
    ((parseToJs trivPolicy st0 ("hello").data).1 =
      "\nexport const importKeys = []\n".data ++ imports_beginning_marker ++ "\n".data ++
        "\n".data ++ imports_ending_marker ++ "\n".data ++
        contentExportJs (trivPolicy.extractDeps (("hello").data)).content ∧
    unparseFromJs trivPolicy (parseToJs trivPolicy st0 ("hello").data).2
      (parseToJs trivPolicy st0 ("hello").data).1 = some ((("hello").data), st0)) :=
  C7_zero_deps_amended trivPolicy st0 (("hello").data) rfl rfl rfl (by decide) (by decide)
    (by decide)

/-- C8: when metadata collection is enabled and no metadata was recorded
before the cycle, after one `parseToJs` call followed by one `unparseFromJs`
call on the same instance (under the well-formedness hypotheses of the round
trip: JSON-plain marker-free keys, JSON-plain line-terminator-free paths,
raw-safe begin-marker-free content) the metadata list has exactly one entry
per extracted dependency in original order, and at every position the
entry's `key` equals the extracted key, its `in` field equals the path
supplied at wrap time, and its `out` field equals the path recovered at
unwrap time (which, on the unmodified script, is that same path). -/
theorem C8_meta_accuracy (P : LoaderPolicy) (st : LoaderState) (raw : JStr)
    (hcm : st.configMeta = true)
    (hlen : (P.extractDeps raw).importKeys.length = (P.extractDeps raw).importPaths.length)
    (hkeys : ∀ k ∈ (P.extractDeps raw).importKeys,
      jsonPlain k = true ∧ ¬ "await".data <:+: k ∧ ¬ imports_ending_marker <:+: k)
    (hpaths : ∀ p ∈ (P.extractDeps raw).importPaths,
      jsonPlain p = true ∧ noLineTerm p = true ∧
      ¬ imports_ending_marker <:+: p)
    (hraw : rawSafe (P.extractDeps raw).content = true)
    (hnoB : ¬ imports_beginning_marker <:+: (P.extractDeps raw).content)
    (hmeta : st.configMeta = true → st.metaImports = []) :
    ∃ newMeta, unparseFromJs P (parseToJs P st raw).2 (parseToJs P st raw).1 =
        some (P.insertDeps (P.extractDeps raw),
          { configMeta := true, metaImports := newMeta }) ∧
      newMeta.length = (P.extractDeps raw).importKeys.length ∧
      (∀ i, (newMeta.get? i).map ImportMetadataEntry.key =
        (P.extractDeps raw).importKeys.get? i) ∧
      (∀ i, (newMeta.get? i).map ImportMetadataEntry.inPath =
        (P.extractDeps raw).importPaths.get? i) ∧
      (∀ i, (newMeta.get? i).map ImportMetadataEntry.outPath =
        (P.extractDeps raw).importPaths.get? i) := by
  refine ⟨((P.extractDeps raw).importKeys.zip (P.extractDeps raw).importPaths).map
    (fun kp => ⟨kp.1, kp.2, kp.2⟩), ?_, ?_, ?_, ?_, ?_⟩
  · rw [unparse_parse_general P st raw hlen hkeys hpaths hraw hnoB hmeta, hcm]
    rw [if_pos rfl]
  · rw [List.length_map, List.length_zip, hlen, Nat.min_self]
  · intro i
    have h1 := (zip_get?_eq (P.extractDeps raw).importKeys
      (P.extractDeps raw).importPaths hlen i).1
    rw [List.get?_map, ← h1]
    cases ((P.extractDeps raw).importKeys.zip (P.extractDeps raw).importPaths).get? i <;>
      rfl
  · intro i
    have h2 := (zip_get?_eq (P.extractDeps raw).importKeys
      (P.extractDeps raw).importPaths hlen i).2
    rw [List.get?_map, ← h2]
    cases ((P.extractDeps raw).importKeys.zip (P.extractDeps raw).importPaths).get? i <;>
      rfl
  · intro i
    have h2 := (zip_get?_eq (P.extractDeps raw).importKeys
      (P.extractDeps raw).importPaths hlen i).2
    rw [List.get?_map, ← h2]
    cases ((P.extractDeps raw).importKeys.zip (P.extractDeps raw).importPaths).get? i <;>
      rfl

/-- Witness: the C8 theorem applied to the single-dependency policy, the
metadata-enabled fresh state and the document `"hi"`. -/
theorem C8_meta_accuracy_witness :
    ∃ newMeta, unparseFromJs oneDepPolicy (parseToJs oneDepPolicy stMeta ("hi").data).2
        (parseToJs oneDepPolicy stMeta ("hi").data).1 =
        some (oneDepPolicy.insertDeps (oneDepPolicy.extractDeps (("hi").data)),
          { configMeta := true, metaImports := newMeta }) ∧
      newMeta.length = (oneDepPolicy.extractDeps (("hi").data)).importKeys.length ∧
      (∀ i, (newMeta.get? i).map ImportMetadataEntry.key =
        (oneDepPolicy.extractDeps (("hi").data)).importKeys.get? i) ∧
      (∀ i, (newMeta.get? i).map ImportMetadataEntry.inPath =
        (oneDepPolicy.extractDeps (("hi").data)).importPaths.get? i) ∧
      (∀ i, (newMeta.get? i).map ImportMetadataEntry.outPath =
        (oneDepPolicy.extractDeps (("hi").data)).importPaths.get? i) :=
  C8_meta_accuracy oneDepPolicy stMeta (("hi").data) rfl rfl (by decide) (by decide)
    (by decide) (by decide) (by decide)

/-- C6: for every wrapped marked region over JSON-plain keys and paths (keys
containing neither `await` nor the end marker; paths free of LineTerminator
characters — which the `s`-flag-less path group of `import_statement_regex`
cannot cross — and not containing the end marker) and every remainder of the
script free of the begin marker, the block replacement of `unparseFromJs`
locates the marked region and extracts the full import path list whether the
statement separators around the statements are newlines, semicolons, or
commas, and the extracted path list is the same in all three separator
variants. -/
theorem C6_sep_robustness {keys paths : List JStr} {tail : JStr}
    (hlen : keys.length = paths.length)
    (hkeys : ∀ k ∈ keys, jsonPlain k = true ∧ ¬ "await".data <:+: k ∧
      ¬ imports_ending_marker <:+: k)
    (hpaths : ∀ p ∈ paths, jsonPlain p = true ∧ noLineTerm p = true ∧
      ¬ imports_ending_marker <:+: p)
    (htail : ¬ imports_beginning_marker <:+: tail) :
    ∀ sep ∈ (["\n".data, ";".data, ",".data] : List JStr),
      (blockReplaceAll (sepVariantScript sep (pairStmts keys paths) tail)).2 = paths := by
  intro sep hsep
  rcases List.mem_cons.mp hsep with rfl | h2
  · rw [blockRA_sepVariant_nl hkeys hpaths htail, zip_map_snd_eq keys paths hlen]
  rcases List.mem_cons.mp h2 with rfl | h3
  · rw [show ((";").data : List Char) = [';'] from rfl]
    rw [blockRA_sepVariant_c (by decide) hkeys hpaths htail, zip_map_snd_eq keys paths hlen]
  rcases List.mem_cons.mp h3 with rfl | h4
  · rw [show ((",").data : List Char) = [','] from rfl]
    rw [blockRA_sepVariant_c (by decide) hkeys hpaths htail, zip_map_snd_eq keys paths hlen]
  · exact absurd h4 (List.not_mem_nil sep)

/-- Witness: the C6 theorem applied to one key/path pair and an empty script
remainder, for each of the three separator variants. -/
theorem C6_sep_robustness_witness :
    (blockReplaceAll (sepVariantScript ("\n").data
      (pairStmts [("k1").data] [("p1").data]) [])).2 = [("p1").data] ∧
    (blockReplaceAll (sepVariantScript (";").data
      (pairStmts [("k1").data] [("p1").data]) [])).2 = [("p1").data] ∧
    (blockReplaceAll (sepVariantScript (",").data
      (pairStmts [("k1").data] [("p1").data]) [])).2 = [("p1").data] :=
  ⟨@C6_sep_robustness [("k1").data] [("p1").data] [] rfl (by decide) (by decide)
     (by decide) (("\n").data) (by decide),
   @C6_sep_robustness [("k1").data] [("p1").data] [] rfl (by decide) (by decide)
     (by decide) ((";").data) (by decide),
   @C6_sep_robustness [("k1").data] [("p1").data] [] rfl (by decide) (by decide)
     (by decide) ((",").data) (by decide)⟩
